import Mathlib

/-!
Verification development for the ns-3 packet tag ledger (`src/common/tag-list.h`).

The repository source contains only the public header of `ns3::TagList`: the
class declarations, field declarations (`uint16_t m_used; struct TagListData *m_data;`)
and doc comments.  The bodies of the member functions are not part of the
source excerpt, so — following the specification — the operations are modelled
from the spec where the header leaves them open, and from the header's own
declarations and doc comments where those speak (field widths, record layout:
"each tag is stored as 4 32bit integers (TypeId, tag data size, start, end)
followed by the tag data").

Layout of the development:
  1. the packed record codec (encode / decode over byte lists);
  2. the heap model: reference-counted `TagListData` blocks and `TagList`
     handles with copy-on-write unsharing;
  3. the filtering range iterator;
  4. the reachable-state invariant and its preservation proofs;
  5. one theorem per claim, with witnesses.
-/

namespace NS3

/-- A decoded tag record.  Mirrors `TagList::Iterator::Item` from the header:
`TypeId tid; uint32_t size; uint32_t start; uint32_t end;` plus the payload
bytes exposed there through `TagBuffer buf`.  The C++ field `end` is a Lean
keyword, so it is named `stop` here. -/
structure TagRecord where
  tid : Nat
  size : Nat
  start : Nat
  stop : Nat
  payload : List Nat
deriving Repr, DecidableEq

/-- Well-formedness of one record as stored by the ledger: the four header
fields fit in 32 bits (they are `uint32_t` in the header) and the payload
holds exactly `size` bytes. -/
def TagRecord.WF (r : TagRecord) : Prop :=
  r.tid < 4294967296 ∧ r.size < 4294967296 ∧ r.start < 4294967296 ∧
    r.stop < 4294967296 ∧ r.payload.length = r.size

instance (r : TagRecord) : Decidable r.WF := by
  unfold TagRecord.WF; infer_instance

/-- Reassemble a 32-bit little-endian quantity from four bytes. -/
def fromBytes (b0 b1 b2 b3 : Nat) : Nat :=
  b0 + 256 * b1 + 65536 * b2 + 16777216 * b3

/-- The four little-endian bytes of the 32-bit value `n`. -/
def toBytes (n : Nat) : List Nat :=
  [n % 256, n / 256 % 256, n / 65536 % 256, n / 16777216 % 256]

theorem fromBytes_toBytes (n : Nat) (h : n < 4294967296) :
    fromBytes (n % 256) (n / 256 % 256) (n / 65536 % 256) (n / 16777216 % 256) = n := by
  unfold fromBytes
  omega

/-- Packed binary layout of one record, from the header's internal note:
"each tag is stored as 4 32bit integers (TypeId, tag data size, start, end)
followed by the tag data".  Little-endian byte order is the fixed,
documented convention of this model. -/
def encodeRecord (r : TagRecord) : List Nat :=
  toBytes r.tid ++ toBytes r.size ++ toBytes r.start ++ toBytes r.stop ++ r.payload

/-- Records are stored contiguously, back-to-back, no padding, in insertion
order. -/
def encodeList : List TagRecord → List Nat
  | [] => []
  | r :: rs => encodeRecord r ++ encodeList rs

theorem length_encodeRecord (r : TagRecord) :
    (encodeRecord r).length = 16 + r.payload.length := by
  simp [encodeRecord, toBytes]
  omega

/-- Parse one packed record header: 16 header bytes (four 32-bit fields),
then `size` payload bytes.  Returns the decoded record and the remaining
byte stream, or `none` if fewer than 16 bytes remain. -/
def readHeader : List Nat → Option (TagRecord × List Nat)
  | a0 :: a1 :: a2 :: a3 :: s0 :: s1 :: s2 :: s3 ::
    b0 :: b1 :: b2 :: b3 :: e0 :: e1 :: e2 :: e3 :: rest =>
    let sz := fromBytes s0 s1 s2 s3
    some (⟨fromBytes a0 a1 a2 a3, sz, fromBytes b0 b1 b2 b3, fromBytes e0 e1 e2 e3,
      rest.take sz⟩, rest.drop sz)
  | _ => none

/-- Fuel-driven decoder for the packed record stream. -/
def decodeAux : Nat → List Nat → List TagRecord
  | 0, _ => []
  | fuel + 1, bytes =>
    match readHeader bytes with
    | some (r, rest) => r :: decodeAux fuel rest
    | none => []

/-- Decode a full packed byte stream into the record list it stores. -/
def decodeAll (bytes : List Nat) : List TagRecord :=
  decodeAux bytes.length bytes

theorem readHeader_some_len (bytes : List Nat) (r : TagRecord) (rest : List Nat)
    (h : readHeader bytes = some (r, rest)) :
    16 ≤ bytes.length ∧ rest.length + 16 ≤ bytes.length := by
  match bytes with
  | a0 :: a1 :: a2 :: a3 :: s0 :: s1 :: s2 :: s3 ::
    b0 :: b1 :: b2 :: b3 :: e0 :: e1 :: e2 :: e3 :: tail =>
    simp only [readHeader, Option.some.injEq, Prod.mk.injEq] at h
    have hrest : rest = tail.drop (fromBytes s0 s1 s2 s3) := h.2.symm
    subst hrest
    have := List.length_drop (fromBytes s0 s1 s2 s3) tail
    simp only [List.length_cons]
    omega
  | [] => exact absurd h (by simp [readHeader])
  | [x0] => exact absurd h (by simp [readHeader])
  | [x0, x1] => exact absurd h (by simp [readHeader])
  | [x0, x1, x2] => exact absurd h (by simp [readHeader])
  | [x0, x1, x2, x3] => exact absurd h (by simp [readHeader])
  | [x0, x1, x2, x3, x4] => exact absurd h (by simp [readHeader])
  | [x0, x1, x2, x3, x4, x5] => exact absurd h (by simp [readHeader])
  | [x0, x1, x2, x3, x4, x5, x6] => exact absurd h (by simp [readHeader])
  | [x0, x1, x2, x3, x4, x5, x6, x7] => exact absurd h (by simp [readHeader])
  | [x0, x1, x2, x3, x4, x5, x6, x7, x8] => exact absurd h (by simp [readHeader])
  | [x0, x1, x2, x3, x4, x5, x6, x7, x8, x9] => exact absurd h (by simp [readHeader])
  | [x0, x1, x2, x3, x4, x5, x6, x7, x8, x9, x10] => exact absurd h (by simp [readHeader])
  | [x0, x1, x2, x3, x4, x5, x6, x7, x8, x9, x10, x11] => exact absurd h (by simp [readHeader])
  | [x0, x1, x2, x3, x4, x5, x6, x7, x8, x9, x10, x11, x12] => exact absurd h (by simp [readHeader])
  | [x0, x1, x2, x3, x4, x5, x6, x7, x8, x9, x10, x11, x12, x13] => exact absurd h (by simp [readHeader])
  | [x0, x1, x2, x3, x4, x5, x6, x7, x8, x9, x10, x11, x12, x13, x14] => exact absurd h (by simp [readHeader])

/-- The decoder consumes at least 16 bytes per record, so any fuel at least
the length of the stream gives the same answer. -/
theorem decodeAux_fuel (fuel fuel' : Nat) (bytes : List Nat)
    (h : bytes.length ≤ fuel) (h' : bytes.length ≤ fuel') :
    decodeAux fuel bytes = decodeAux fuel' bytes := by
  induction fuel using Nat.strong_induction_on generalizing fuel' bytes with
  | _ fuel ih =>
    match hr : readHeader bytes with
    | none =>
      cases fuel <;> cases fuel' <;> simp [decodeAux, hr]
    | some (r, rest) =>
      have hlen := readHeader_some_len bytes r rest hr
      match fuel, fuel' with
      | f + 1, f' + 1 =>
        simp only [decodeAux, hr, List.cons.injEq, true_and]
        exact ih f (by omega) f' rest (by omega) (by omega)
      | 0, _ => omega
      | _ + 1, 0 => omega

theorem decodeAll_eq_aux (fuel : Nat) (bytes : List Nat) (h : bytes.length ≤ fuel) :
    decodeAll bytes = decodeAux fuel bytes :=
  decodeAux_fuel bytes.length fuel bytes le_rfl h

theorem decodeAll_cons (bytes : List Nat) (r : TagRecord) (rest : List Nat)
    (h : readHeader bytes = some (r, rest)) :
    decodeAll bytes = r :: decodeAll rest := by
  have hlen := readHeader_some_len bytes r rest h
  unfold decodeAll
  have hb : bytes.length = (bytes.length - 1) + 1 := by omega
  rw [hb]
  simp only [decodeAux, h]
  congr 1
  exact (decodeAll_eq_aux (bytes.length - 1) rest (by omega)).symm

/-- Reading back the header of a well-formed encoded record recovers the
record verbatim and leaves the following bytes untouched. -/
theorem readHeader_encode (r : TagRecord) (more : List Nat) (hr : r.WF) :
    readHeader (encodeRecord r ++ more) = some (r, more) := by
  obtain ⟨h1, h2, h3, h4, h5⟩ := hr
  simp only [encodeRecord, toBytes, List.cons_append, List.nil_append, readHeader,
    Option.some.injEq, Prod.mk.injEq]
  rw [fromBytes_toBytes r.tid h1, fromBytes_toBytes r.size h2,
    fromBytes_toBytes r.start h3, fromBytes_toBytes r.stop h4]
  rw [← h5, List.take_left, List.drop_left, h5]
  exact ⟨rfl, rfl⟩

/-- Round trip of the packed codec: decoding an encoded record list recovers
it record-for-record; bytes appended after it decode independently. -/
theorem decodeAll_encodeList (rs : List TagRecord) (more : List Nat)
    (h : ∀ r ∈ rs, r.WF) :
    decodeAll (encodeList rs ++ more) = rs ++ decodeAll more := by
  induction rs with
  | nil => simp [encodeList]
  | cons r rs ih =>
    have hr : r.WF := h r (List.mem_cons_self r rs)
    have hrs : ∀ x ∈ rs, x.WF := fun x hx => h x (List.mem_cons_of_mem r hx)
    rw [encodeList, List.append_assoc,
      decodeAll_cons _ r (encodeList rs ++ more) (readHeader_encode r _ hr), ih hrs]
    rfl

theorem decodeAll_nil : decodeAll [] = [] := rfl

theorem decodeAll_encode (rs : List TagRecord) (h : ∀ r ∈ rs, r.WF) :
    decodeAll (encodeList rs) = rs := by
  have := decodeAll_encodeList rs [] h
  simpa [decodeAll_nil] using this

theorem encodeList_append (rs rs' : List TagRecord) :
    encodeList (rs ++ rs') = encodeList rs ++ encodeList rs' := by
  induction rs with
  | nil => simp [encodeList]
  | cons r rs ih => simp [encodeList, ih]

theorem length_encodeList (rs : List TagRecord) :
    (encodeList rs).length = List.sum (rs.map (fun r => 16 + r.payload.length)) := by
  induction rs with
  | nil => simp [encodeList]
  | cons r rs ih => simp [encodeList, length_encodeRecord, ih]

/-! ## Heap model

The header declares `struct TagListData *m_data;` inside `TagList`, with
`TagListData` reference-counted and shared ("unshared as-needed to emulate COW
semantics").  Blocks live in a heap (`State.blocks`), addressed by index;
`m_data = none` models the null pointer of a default-constructed or cleared
list.  Ledger handles themselves live in `State.ledgers` so that copy
construction, assignment and destruction are observable operations. -/

/-- Modelled from the spec: the shared storage block (`struct TagListData`,
whose definition is not part of the source excerpt).  `count` is the
reference count; `data` is the packed tag byte buffer (its length is the
block's capacity). -/
structure TagListData where
  count : Nat
  data : List Nat
deriving Repr, DecidableEq

/-- The ledger handle, with the header's fields: `uint16_t m_used;`
(bytes of `data` valid for this handle) and `struct TagListData *m_data;`
(a heap index, `none` for the null pointer). -/
structure TagList where
  m_used : Nat
  m_data : Option Nat
deriving Repr, DecidableEq

/-- The whole heap: storage blocks and live ledger handles.  A `none` slot is
a freed block / destroyed handle. -/
structure State where
  blocks : List (Option TagListData)
  ledgers : List (Option TagList)
deriving Repr, DecidableEq

def State.empty : State := ⟨[], []⟩

/-- Does this ledger slot hold a handle that points at block `bid`? -/
def refsTo (bid : Nat) : Option TagList → Bool
  | some l => l.m_data == some bid
  | none => false

/-- Number of live handles pointing at block `bid`. -/
def State.refs (s : State) (bid : Nat) : Nat :=
  s.ledgers.countP (refsTo bid)

/-- The packed bytes this handle can observe: the first `m_used` bytes of its
block (nothing for a null `m_data`). -/
def ledgerView (s : State) (lid : Nat) : List Nat :=
  match s.ledgers[lid]? with
  | some (some l) =>
    match l.m_data with
    | some bid =>
      match s.blocks[bid]? with
      | some (some blk) => blk.data.take l.m_used
      | _ => []
    | none => []
  | _ => []

/-- The records a handle observes, decoded from its packed view. -/
def ledgerRecords (s : State) (lid : Nat) : List TagRecord :=
  decodeAll (ledgerView s lid)

/-- Modelled from the spec: `TagList::Allocate` (body not in the source
excerpt) — a fresh block starts with `refcount = 1`. -/
def Allocate (bytes : List Nat) : TagListData := ⟨1, bytes⟩

/-- Modelled from the spec: `TagList::Deallocate` (body not in the source
excerpt) — decrement the refcount; when it reaches zero, release the bytes
(the slot becomes `none`). -/
def Deallocate (blocks : List (Option TagListData)) : Option Nat → List (Option TagListData)
  | none => blocks
  | some bid =>
    match blocks[bid]? with
    | some (some blk) =>
      if blk.count ≤ 1 then blocks.set bid none
      else blocks.set bid (some ⟨blk.count - 1, blk.data⟩)
    | _ => blocks

/-- Take one more reference on a shared block (`m_data->count++`). -/
def shareData (blocks : List (Option TagListData)) : Option Nat → List (Option TagListData)
  | none => blocks
  | some bid =>
    match blocks[bid]? with
    | some (some blk) => blocks.set bid (some ⟨blk.count + 1, blk.data⟩)
    | _ => blocks

/-- Modelled from the spec: the common storage path of every mutator — write
`newBytes` as the handle's content and set its used count to `newUsed`.
If the handle's block is held exclusively (`refcount == 1`) and has enough
capacity, write in place; otherwise unshare/grow: drop the old reference
(COW) and allocate a fresh block holding exactly the new bytes. -/
def writeBytes (s : State) (lid : Nat) (newBytes : List Nat) (newUsed : Nat) : State :=
  match s.ledgers[lid]? with
  | some (some l) =>
    match l.m_data with
    | some bid =>
      match s.blocks[bid]? with
      | some (some blk) =>
        if blk.count = 1 ∧ newBytes.length ≤ blk.data.length then
          { blocks := s.blocks.set bid
              (some ⟨blk.count, newBytes ++ blk.data.drop newBytes.length⟩),
            ledgers := s.ledgers.set lid (some ⟨newUsed, some bid⟩) }
        else
          { blocks := Deallocate s.blocks (some bid) ++ [some (Allocate newBytes)],
            ledgers := s.ledgers.set lid (some ⟨newUsed, some s.blocks.length⟩) }
      | _ =>
        { blocks := s.blocks ++ [some (Allocate newBytes)],
          ledgers := s.ledgers.set lid (some ⟨newUsed, some s.blocks.length⟩) }
    | none =>
      { blocks := s.blocks ++ [some (Allocate newBytes)],
        ledgers := s.ledgers.set lid (some ⟨newUsed, some s.blocks.length⟩) }
  | _ => s

/-- Failure taxonomy of the spec (no `OutOfMemory`: allocation in the model
always succeeds). -/
inductive TagError where
  | invalidRange
  | iteratorExhausted
deriving Repr, DecidableEq

/-- `TagList()` — a fresh handle with `m_used = 0`, `m_data = 0` (null). -/
def newTagList (s : State) : State :=
  { s with ledgers := s.ledgers ++ [some ⟨0, none⟩] }

/-- `TagList(const TagList &o)` — share the pointer, increment the block's
refcount, copy no bytes.  The new handle gets the next free slot. -/
def copyTagList (s : State) (src : Nat) : State :=
  match s.ledgers[src]? with
  | some (some l) =>
    { blocks := shareData s.blocks l.m_data, ledgers := s.ledgers ++ [some l] }
  | _ => s

/-- Retarget handle `lid` to hold `tgt` (sharing `tgt`'s block if any) and
drop the reference the handle previously held.  Common core of assignment,
destruction and `RemoveAll`. -/
def relink (s : State) (lid : Nat) (tgt : Option TagList) : State :=
  match s.ledgers[lid]? with
  | some (some l) =>
    { blocks := Deallocate (shareData s.blocks (tgt.bind TagList.m_data)) l.m_data,
      ledgers := s.ledgers.set lid tgt }
  | _ => s

/-- `TagList &operator = (const TagList &o)`. -/
def assignTagList (s : State) (dst src : Nat) : State :=
  if dst = src then s
  else
    match s.ledgers[src]? with
    | some (some ls) => relink s dst (some ls)
    | _ => s

/-- `~TagList()`. -/
def destroyTagList (s : State) (lid : Nat) : State :=
  relink s lid none

/-- `TagList::RemoveAll` — drop the reference, reset to the null, empty
state.  Clearing never touches a sibling's bytes. -/
def TagList.RemoveAll (s : State) (lid : Nat) : State :=
  relink s lid (some ⟨0, none⟩)

def u32 (n : Nat) : Nat := n % 4294967296

/-- `TagList::Add (TypeId tid, uint32_t bufferSize, uint32_t start, uint32_t end)`.
Modelled from the spec: validate `start ≤ end` (`InvalidRange` otherwise),
ensure exclusive sufficient storage, append the packed record, advance
`m_used` by `16 + bufferSize` — the field is `uint16_t`, so the count wraps
modulo 2^16.  The caller's payload is what it writes into the returned
`TagBuffer` of `bufferSize` bytes: it is truncated to that size and the
slack is pre-zeroed (the documented choice of this model). -/
def TagList.Add (s : State) (lid : Nat) (tid size start stop : Nat)
    (payload : List Nat) : Except TagError State :=
  if u32 stop < u32 start then .error .invalidRange
  else
    match s.ledgers[lid]? with
    | some (some l) =>
      let pay := payload.take (u32 size) ++ List.replicate (u32 size - payload.length) 0
      let r : TagRecord := ⟨u32 tid, u32 size, u32 start, u32 stop, pay⟩
      .ok (writeBytes s lid (ledgerView s lid ++ encodeRecord r)
        ((l.m_used + 16 + u32 size) % 65536))
    | _ => .ok s

/-- Total version of `Add` for the step relation: a failed call leaves the
state untouched. -/
def stepAdd (s : State) (lid : Nat) (tid size start stop : Nat)
    (payload : List Nat) : State :=
  match TagList.Add s lid tid size start stop payload with
  | .ok s' => s'
  | .error _ => s

/-- `TagList::Add (const TagList &o)` — merge: append every record of `o`,
verbatim and in order, after this ledger's own records, as a raw byte-range
copy of `o`'s used region. -/
def TagList.AddList (s : State) (dst src : Nat) : State :=
  match s.ledgers[dst]?, s.ledgers[src]? with
  | some (some ld), some (some ls) =>
    writeBytes s dst (ledgerView s dst ++ ledgerView s src)
      ((ld.m_used + ls.m_used) % 65536)
  | _, _ => s

/-! ## Offset rebasing

Modelled from the spec: `rebase_on_append(delta, boundary)` shifts every
record whose offsets lie entirely beyond the boundary; symmetrically for
`rebase_on_prepend`.  "Entirely beyond/before" is strict here — the
documented convention of this model (the spec leaves exact boundary
inclusivity open). -/

/-- Does this record lie entirely beyond the append boundary? -/
def beyond (boundary : Nat) (r : TagRecord) : Bool :=
  decide (boundary < r.start ∧ boundary < r.stop)

/-- Does this record lie entirely before the prepend boundary? -/
def before (boundary : Nat) (r : TagRecord) : Bool :=
  decide (r.start < boundary ∧ r.stop < boundary)

/-- Offsets are `uint32_t`: adding the signed adjustment wraps modulo 2^32. -/
def adjustOffset (delta : Int) (x : Nat) : Nat :=
  (((x : Int) + delta).emod 4294967296).toNat

def shiftRecord (delta : Int) (r : TagRecord) : TagRecord :=
  { r with start := adjustOffset delta r.start, stop := adjustOffset delta r.stop }

/-- `TagList::IsDirtyAtEnd` — the cheap pre-test: does any record need
adjustment for an append-growth at `appendOffset`? -/
def TagList.IsDirtyAtEnd (s : State) (lid : Nat) (appendOffset : Nat) : Bool :=
  (ledgerRecords s lid).any (beyond appendOffset)

/-- `TagList::IsDirtyAtStart`. -/
def TagList.IsDirtyAtStart (s : State) (lid : Nat) (prependOffset : Nat) : Bool :=
  (ledgerRecords s lid).any (before prependOffset)

/-- `TagList::AddAtEnd (int32_t adjustment, uint32_t appendOffset)`.
Modelled from the spec: if no record needs adjustment the call is a no-op
(critically, no unshare); otherwise rewrite the records, adding the delta to
both offsets of exactly those records lying entirely beyond the boundary. -/
def TagList.AddAtEnd (s : State) (lid : Nat) (adjustment : Int) (appendOffset : Nat) : State :=
  match s.ledgers[lid]? with
  | some (some _) =>
    if TagList.IsDirtyAtEnd s lid appendOffset then
      let newRecs := (ledgerRecords s lid).map
        (fun r => if beyond appendOffset r then shiftRecord adjustment r else r)
      writeBytes s lid (encodeList newRecs) ((encodeList newRecs).length % 65536)
    else s
  | _ => s

/-- `TagList::AddAtStart (int32_t adjustment, uint32_t prependOffset)`. -/
def TagList.AddAtStart (s : State) (lid : Nat) (adjustment : Int) (prependOffset : Nat) : State :=
  match s.ledgers[lid]? with
  | some (some _) =>
    if TagList.IsDirtyAtStart s lid prependOffset then
      let newRecs := (ledgerRecords s lid).map
        (fun r => if before prependOffset r then shiftRecord adjustment r else r)
      writeBytes s lid (encodeList newRecs) ((encodeList newRecs).length % 65536)
    else s
  | _ => s

/-! ## Range iterator

Modelled from the spec: `begin(query_start, query_end)` walks the ledger's
packed records in insertion order, yielding those whose `[start, end]` range
overlaps the closed query window (closed-inclusive overlap is the documented
convention of this model).  The iterator pre-positions itself on the next
matching record, like the C++ iterator's `PrepareForNext`. -/

/-- Does the record's `[start, end]` range overlap the closed window
`[qs, qe]`? -/
def overlaps (qs qe : Nat) (r : TagRecord) : Bool :=
  decide (qs ≤ r.stop ∧ r.start ≤ qe)

/-- Skip past records that do not overlap the window (`PrepareForNext`). -/
def skipMiss (qs qe : Nat) (recs : List TagRecord) : List TagRecord :=
  recs.dropWhile (fun r => !overlaps qs qe r)

/-- `TagList::Iterator` — the remaining records (pre-positioned on the next
match) plus the query window (`m_offsetStart`, `m_offsetEnd`). -/
structure Iterator where
  recs : List TagRecord
  m_offsetStart : Nat
  m_offsetEnd : Nat
deriving Repr, DecidableEq

/-- `TagList::Begin (uint32_t offsetStart, uint32_t offsetEnd)`. -/
def TagList.Begin (s : State) (lid : Nat) (offsetStart offsetEnd : Nat) : Iterator :=
  ⟨skipMiss offsetStart offsetEnd (ledgerRecords s lid), offsetStart, offsetEnd⟩

/-- `TagList::Iterator::HasNext`. -/
def Iterator.HasNext (it : Iterator) : Bool :=
  !it.recs.isEmpty

/-- `TagList::Iterator::Next` — yields the pending matching record and
re-positions on the next one; a precondition violation (`HasNext` false)
fails with `IteratorExhausted`. -/
def Iterator.Next (it : Iterator) : Except TagError (TagRecord × Iterator) :=
  match it.recs with
  | [] => .error .iteratorExhausted
  | r :: rest =>
    .ok (r, ⟨skipMiss it.m_offsetStart it.m_offsetEnd rest, it.m_offsetStart, it.m_offsetEnd⟩)

/-- Drain an iterator (fuel-driven). -/
def collectAux : Nat → Iterator → List TagRecord
  | 0, _ => []
  | fuel + 1, it =>
    match it.Next with
    | .ok (r, it') => r :: collectAux fuel it'
    | .error _ => []

/-- All items an iterator yields, in order. -/
def collectI (it : Iterator) : List TagRecord :=
  collectAux (it.recs.length + 1) it

/-! ## Iterator lemmas -/

theorem skipMiss_cons_pos (qs qe : Nat) (r : TagRecord) (rest : List TagRecord)
    (h : overlaps qs qe r = true) : skipMiss qs qe (r :: rest) = r :: rest := by
  simp [skipMiss, List.dropWhile_cons, h]

theorem skipMiss_cons_neg (qs qe : Nat) (r : TagRecord) (rest : List TagRecord)
    (h : overlaps qs qe r = false) : skipMiss qs qe (r :: rest) = skipMiss qs qe rest := by
  simp [skipMiss, List.dropWhile_cons, h]

theorem skipMiss_length_le (qs qe : Nat) (recs : List TagRecord) :
    (skipMiss qs qe recs).length ≤ recs.length :=
  (List.dropWhile_sublist _).length_le

theorem collectAux_skipMiss (qs qe : Nat) (recs : List TagRecord) (fuel : Nat)
    (h : (skipMiss qs qe recs).length < fuel) :
    collectAux fuel ⟨skipMiss qs qe recs, qs, qe⟩ = recs.filter (overlaps qs qe) := by
  induction recs generalizing fuel with
  | nil =>
    match fuel with
    | f + 1 => simp [skipMiss, collectAux, Iterator.Next]
  | cons r rest ih =>
    by_cases hov : overlaps qs qe r = true
    · rw [skipMiss_cons_pos qs qe r rest hov] at h ⊢
      match fuel with
      | f + 1 =>
        simp only [collectAux, Iterator.Next]
        rw [List.filter_cons_of_pos hov]
        congr 1
        apply ih
        have := skipMiss_length_le qs qe rest
        simp only [List.length_cons] at h
        omega
    · have hov' : overlaps qs qe r = false := by simpa using hov
      rw [skipMiss_cons_neg qs qe r rest hov'] at h ⊢
      rw [List.filter_cons_of_neg (by simp [hov']), ih fuel h]

/-- What `Begin` yields is exactly the insertion-ordered overlap filter. -/
theorem collectI_Begin (s : State) (lid qs qe : Nat) :
    collectI (TagList.Begin s lid qs qe) = (ledgerRecords s lid).filter (overlaps qs qe) := by
  unfold collectI TagList.Begin
  exact collectAux_skipMiss qs qe (ledgerRecords s lid) _ (by simp)

/-! ## Counting helpers -/

theorem countP_set_eq {α : Type} (l : List α) (i : Nat) (a : α) (p : α → Bool)
    (h : i < l.length) :
    (l.set i a).countP p + (if p l[i] then 1 else 0) = l.countP p + (if p a then 1 else 0) := by
  induction l generalizing i with
  | nil => simp at h
  | cons x t ih =>
    match i with
    | 0 => simp [List.countP_cons]; omega
    | i + 1 =>
      simp only [List.set_cons_succ, List.countP_cons, List.getElem_cons_succ]
      have := ih i (by simpa using Nat.lt_of_succ_lt_succ h)
      omega

theorem countP_pos_of_elem {α : Type} (l : List α) (i : Nat) (a : α) (p : α → Bool)
    (h : l[i]? = some a) (hp : p a = true) : 1 ≤ l.countP p :=
  List.countP_pos_iff.mpr ⟨a, List.getElem?_mem h, hp⟩

theorem countP_two_of_elem {α : Type} (l : List α) (i j : Nat) (a b : α) (p : α → Bool)
    (hij : i ≠ j) (ha : l[i]? = some a) (hb : l[j]? = some b)
    (pa : p a = true) (pb : p b = true) : 2 ≤ l.countP p := by
  induction l generalizing i j with
  | nil => simp at ha
  | cons x t ih =>
    match i, j with
    | 0, 0 => exact absurd rfl hij
    | 0, j + 1 =>
      simp only [List.getElem?_cons_zero, Option.some.injEq] at ha
      simp only [List.getElem?_cons_succ] at hb
      subst ha
      have h2 := countP_pos_of_elem t j b p hb pb
      rw [List.countP_cons, pa]
      simp only [if_true]
      omega
    | i + 1, 0 =>
      simp only [List.getElem?_cons_zero, Option.some.injEq] at hb
      simp only [List.getElem?_cons_succ] at ha
      subst hb
      have h2 := countP_pos_of_elem t i a p ha pa
      rw [List.countP_cons, pb]
      simp only [if_true]
      omega
    | i + 1, j + 1 =>
      simp only [List.getElem?_cons_succ] at ha hb
      have := ih i j (fun hh => hij (by omega)) ha hb
      simp only [List.countP_cons]
      omega

/-! ## The reachable-state invariant -/

/-- Invariant of every reachable heap state:
- `live`: a live block's refcount equals the number of handles pointing at it;
- `freed`: a freed slot has no referrers;
- `range`: out-of-heap indices have no referrers;
- `fits`: a handle's `m_used` never exceeds its block's capacity;
- `u16`: `m_used` is a `uint16_t` value;
- `nullzero`: a null handle has `m_used = 0`. -/
structure Inv (s : State) : Prop where
  live : ∀ (bid : Nat) (blk : TagListData),
    s.blocks[bid]? = some (some blk) → blk.count = s.refs bid
  freed : ∀ (bid : Nat), s.blocks[bid]? = some none → s.refs bid = 0
  range : ∀ (bid : Nat), s.blocks.length ≤ bid → s.refs bid = 0
  fits : ∀ (lid : Nat) (l : TagList) (bid : Nat) (blk : TagListData),
    s.ledgers[lid]? = some (some l) → l.m_data = some bid →
    s.blocks[bid]? = some (some blk) → l.m_used ≤ blk.data.length
  u16 : ∀ (lid : Nat) (l : TagList), s.ledgers[lid]? = some (some l) → l.m_used < 65536
  nullzero : ∀ (lid : Nat) (l : TagList),
    s.ledgers[lid]? = some (some l) → l.m_data = none → l.m_used = 0

/-- Every state reachable through the ledger's public lifecycle and
operations. -/
inductive Reachable : State → Prop where
  | empty : Reachable State.empty
  | newL {s : State} : Reachable s → Reachable (newTagList s)
  | copy {s : State} (src : Nat) : Reachable s → Reachable (copyTagList s src)
  | assign {s : State} (dst src : Nat) : Reachable s → Reachable (assignTagList s dst src)
  | destroy {s : State} (lid : Nat) : Reachable s → Reachable (destroyTagList s lid)
  | add {s : State} (lid tid size start stop : Nat) (payload : List Nat) :
      Reachable s → Reachable (stepAdd s lid tid size start stop payload)
  | addList {s : State} (dst src : Nat) : Reachable s → Reachable (TagList.AddList s dst src)
  | removeAll {s : State} (lid : Nat) : Reachable s → Reachable (TagList.RemoveAll s lid)
  | addAtEnd {s : State} (lid : Nat) (adj : Int) (off : Nat) :
      Reachable s → Reachable (TagList.AddAtEnd s lid adj off)
  | addAtStart {s : State} (lid : Nat) (adj : Int) (off : Nat) :
      Reachable s → Reachable (TagList.AddAtStart s lid adj off)

/-! ## Basic facts about `refs`, `Deallocate`, `shareData` -/

theorem refsTo_some (bid : Nat) (l : TagList) :
    refsTo bid (some l) = true ↔ l.m_data = some bid := by
  simp [refsTo]

theorem refs_set (s : State) (lid : Nat) (olOld ol : Option TagList) (bid : Nat)
    (h : s.ledgers[lid]? = some olOld) :
    (s.ledgers.set lid ol).countP (refsTo bid) + (if refsTo bid olOld then 1 else 0)
      = s.refs bid + (if refsTo bid ol then 1 else 0) := by
  obtain ⟨hlt, hval⟩ := List.getElem?_eq_some.mp h
  have := countP_set_eq s.ledgers lid ol (refsTo bid) hlt
  rw [hval] at this
  exact this

theorem refs_append (s : State) (ol : Option TagList) (bid : Nat) :
    (s.ledgers ++ [ol]).countP (refsTo bid)
      = s.refs bid + (if refsTo bid ol then 1 else 0) := by
  rw [List.countP_append]
  simp [State.refs, List.countP_cons]

theorem length_Deallocate (blocks : List (Option TagListData)) (ob : Option Nat) :
    (Deallocate blocks ob).length = blocks.length := by
  unfold Deallocate
  match ob with
  | none => rfl
  | some bid =>
    rcases hb : blocks[bid]? with _ | (_ | blk)
    · simp [hb]
    · simp [hb]
    · simp only [hb]
      split <;> simp [List.length_set]

theorem length_shareData (blocks : List (Option TagListData)) (ob : Option Nat) :
    (shareData blocks ob).length = blocks.length := by
  unfold shareData
  match ob with
  | none => rfl
  | some bid =>
    rcases hb : blocks[bid]? with _ | (_ | blk)
    · simp [hb]
    · simp [hb]
    · simp [hb, List.length_set]

theorem Deallocate_getElem_ne (blocks : List (Option TagListData)) (bid bid' : Nat)
    (h : bid' ≠ bid) : (Deallocate blocks (some bid))[bid']? = blocks[bid']? := by
  unfold Deallocate
  rcases hb : blocks[bid]? with _ | (_ | blk)
  · simp [hb]
  · simp [hb]
  · simp only [hb]
    split <;> exact List.getElem?_set_ne (fun hh => h hh.symm)

theorem Deallocate_getElem_self (blocks : List (Option TagListData)) (bid : Nat)
    (blk : TagListData) (h : blocks[bid]? = some (some blk)) :
    (Deallocate blocks (some bid))[bid]?
      = if blk.count ≤ 1 then some none else some (some ⟨blk.count - 1, blk.data⟩) := by
  have hlt : bid < blocks.length := (List.getElem?_eq_some.mp h).1
  unfold Deallocate
  simp only [h]
  split <;> simp [List.getElem?_set_self, hlt]

theorem shareData_getElem_ne (blocks : List (Option TagListData)) (bid bid' : Nat)
    (h : bid' ≠ bid) : (shareData blocks (some bid))[bid']? = blocks[bid']? := by
  unfold shareData
  rcases hb : blocks[bid]? with _ | (_ | blk)
  · simp [hb]
  · simp [hb]
  · simp only [hb]
    exact List.getElem?_set_ne (fun hh => h hh.symm)

theorem shareData_getElem_self (blocks : List (Option TagListData)) (bid : Nat)
    (blk : TagListData) (h : blocks[bid]? = some (some blk)) :
    (shareData blocks (some bid))[bid]? = some (some ⟨blk.count + 1, blk.data⟩) := by
  have hlt : bid < blocks.length := (List.getElem?_eq_some.mp h).1
  unfold shareData
  simp only [h]
  simp [List.getElem?_set_self, hlt]

/-- From the invariant: a handle's non-null block pointer is live, and its
refcount (= number of referrers) is at least one. -/
theorem Inv.liveRef {s : State} (hInv : Inv s) {lid : Nat} {l : TagList} {bid : Nat}
    (hl : s.ledgers[lid]? = some (some l)) (hd : l.m_data = some bid) :
    ∃ blk, s.blocks[bid]? = some (some blk) ∧ blk.count = s.refs bid ∧ 1 ≤ s.refs bid := by
  have hpos : 1 ≤ s.refs bid :=
    countP_pos_of_elem s.ledgers lid (some l) (refsTo bid) hl ((refsTo_some bid l).mpr hd)
  have hlt : bid < s.blocks.length := by
    by_contra hge
    have := hInv.range bid (by omega)
    omega
  obtain ⟨ob, hob⟩ : ∃ ob, s.blocks[bid]? = some ob := by
    rw [List.getElem?_eq_getElem hlt]
    exact ⟨_, rfl⟩
  match ob, hob with
  | none, hob =>
    have := hInv.freed bid hob
    omega
  | some blk, hob =>
    exact ⟨blk, hob, hInv.live bid blk hob, hpos⟩

theorem getElem?_concat_cases {α : Type} (l : List α) (x : α) (i : Nat) (y : α)
    (h : (l ++ [x])[i]? = some y) : l[i]? = some y ∨ (i = l.length ∧ y = x) := by
  by_cases hi : i < l.length
  · left
    rw [List.getElem?_append_left hi] at h
    exact h
  · right
    have hlen : i < l.length + 1 := by
      have := (List.getElem?_eq_some.mp h).1
      simpa [List.length_append] using this
    have hieq : i = l.length := by omega
    subst hieq
    refine ⟨rfl, ?_⟩
    have hx : (l ++ [x])[l.length]? = some x := by simp
    rw [hx] at h
    exact (Option.some_inj.mp h).symm

/-! ## Invariant preservation -/

theorem inv_empty : Inv State.empty := by
  refine ⟨?_, ?_, ?_, ?_, ?_, ?_⟩ <;> simp [State.empty, State.refs]

theorem inv_newTagList {s : State} (hInv : Inv s) : Inv (newTagList s) := by
  have hrefs : ∀ bid, (newTagList s).refs bid = s.refs bid := by
    intro bid
    show (s.ledgers ++ [some (⟨0, none⟩ : TagList)]).countP (refsTo bid) = s.refs bid
    rw [refs_append]
    simp [refsTo]
  refine ⟨?_, ?_, ?_, ?_, ?_, ?_⟩
  · intro bid blk hb
    rw [hrefs]
    exact hInv.live bid blk hb
  · intro bid hb
    rw [hrefs]
    exact hInv.freed bid hb
  · intro bid hb
    rw [hrefs]
    exact hInv.range bid hb
  · intro lid l bid blk hl hd hb
    rcases getElem?_concat_cases _ _ _ _ hl with hold | ⟨_, hnew⟩
    · exact hInv.fits lid l bid blk hold hd hb
    · obtain rfl := Option.some_inj.mp hnew
      simp at hd
  · intro lid l hl
    rcases getElem?_concat_cases _ _ _ _ hl with hold | ⟨_, hnew⟩
    · exact hInv.u16 lid l hold
    · obtain rfl := Option.some_inj.mp hnew
      simp
  · intro lid l hl _
    rcases getElem?_concat_cases _ _ _ _ hl with hold | ⟨_, hnew⟩
    · exact hInv.nullzero lid l hold ‹_›
    · obtain rfl := Option.some_inj.mp hnew
      simp

theorem inv_copyTagList {s : State} (hInv : Inv s) (src : Nat) :
    Inv (copyTagList s src) := by
  unfold copyTagList
  rcases hsrc : s.ledgers[src]? with _ | (_ | l)
  · simpa only [hsrc]
  · simpa only [hsrc]
  · simp only [hsrc]
    rcases hd : l.m_data with _ | bid
    · -- null pointer: nothing shared, blocks untouched
      have hrefs : ∀ b, (s.ledgers ++ [some l]).countP (refsTo b) = s.refs b := by
        intro b
        rw [refs_append]
        simp [refsTo, hd]
      refine ⟨?_, ?_, ?_, ?_, ?_, ?_⟩
      · intro b blk hb
        show blk.count = (s.ledgers ++ [some l]).countP (refsTo b)
        rw [hrefs]
        exact hInv.live b blk (by simpa [hd, shareData] using hb)
      · intro b hb
        show (s.ledgers ++ [some l]).countP (refsTo b) = 0
        rw [hrefs]
        exact hInv.freed b (by simpa [hd, shareData] using hb)
      · intro b hb
        show (s.ledgers ++ [some l]).countP (refsTo b) = 0
        rw [hrefs]
        refine hInv.range b ?_
        simpa [hd, shareData] using hb
      · intro lid l2 bid2 blk hl2 hd2 hb2
        rcases getElem?_concat_cases _ _ _ _ hl2 with hold | ⟨_, hnew⟩
        · exact hInv.fits lid l2 bid2 blk hold hd2 (by simpa [hd, shareData] using hb2)
        · obtain rfl := Option.some_inj.mp hnew
          rw [hd] at hd2
          simp at hd2
      · intro lid l2 hl2
        rcases getElem?_concat_cases _ _ _ _ hl2 with hold | ⟨_, hnew⟩
        · exact hInv.u16 lid l2 hold
        · obtain rfl := Option.some_inj.mp hnew
          exact hInv.u16 src l2 hsrc
      · intro lid l2 hl2 hn2
        rcases getElem?_concat_cases _ _ _ _ hl2 with hold | ⟨_, hnew⟩
        · exact hInv.nullzero lid l2 hold hn2
        · obtain rfl := Option.some_inj.mp hnew
          exact hInv.nullzero src l2 hsrc hn2
    · -- shared block: refcount goes up by one together with the referrer count
      obtain ⟨blk, hblk, hcnt, hpos⟩ := hInv.liveRef hsrc hd
      have hbidlt : bid < s.blocks.length := (List.getElem?_eq_some.mp hblk).1
      have hrefs : ∀ b, (s.ledgers ++ [some l]).countP (refsTo b)
          = s.refs b + (if b = bid then 1 else 0) := by
        intro b
        rw [refs_append]
        by_cases hbb : b = bid
        · subst hbb
          simp [refsTo, hd]
        · simp [refsTo, hd, fun hh => hbb (by simpa using hh)]
          intro hc
          exact absurd hc.symm hbb
      refine ⟨?_, ?_, ?_, ?_, ?_, ?_⟩
      · intro b blk2 hb
        show blk2.count = (s.ledgers ++ [some l]).countP (refsTo b)
        rw [hrefs]
        dsimp only at hb
        by_cases hbb : b = bid
        · subst hbb
          rw [shareData_getElem_self s.blocks b blk hblk] at hb
          obtain rfl := Option.some_inj.mp (Option.some_inj.mp hb).symm
          simp [hcnt]
        · rw [shareData_getElem_ne s.blocks bid b hbb] at hb
          simp [hInv.live b blk2 hb, hbb]
      · intro b hb
        show (s.ledgers ++ [some l]).countP (refsTo b) = 0
        rw [hrefs]
        dsimp only at hb
        by_cases hbb : b = bid
        · subst hbb
          rw [shareData_getElem_self s.blocks b blk hblk] at hb
          simp at hb
        · rw [shareData_getElem_ne s.blocks bid b hbb] at hb
          simp [hInv.freed b hb, hbb]
      · intro b hb
        show (s.ledgers ++ [some l]).countP (refsTo b) = 0
        rw [hrefs]
        dsimp only at hb
        rw [length_shareData] at hb
        have : b ≠ bid := by omega
        simp [hInv.range b hb, this]
      · intro lid l2 bid2 blk2 hl2 hd2 hb2
        dsimp only at hb2
        have hfit : ∀ (lidO : Nat), s.ledgers[lidO]? = some (some l2) → l2.m_used ≤ blk2.data.length := by
          intro lidO hO
          by_cases hbb : bid2 = bid
          · subst hbb
            rw [shareData_getElem_self s.blocks bid2 blk hblk] at hb2
            obtain rfl := Option.some_inj.mp (Option.some_inj.mp hb2).symm
            simpa using hInv.fits lidO l2 bid2 blk hO hd2 hblk
          · rw [shareData_getElem_ne s.blocks bid bid2 hbb] at hb2
            exact hInv.fits lidO l2 bid2 blk2 hO hd2 hb2
        rcases getElem?_concat_cases _ _ _ _ hl2 with hold | ⟨_, hnew⟩
        · exact hfit lid hold
        · obtain rfl := Option.some_inj.mp hnew
          exact hfit src hsrc
      · intro lid l2 hl2
        rcases getElem?_concat_cases _ _ _ _ hl2 with hold | ⟨_, hnew⟩
        · exact hInv.u16 lid l2 hold
        · obtain rfl := Option.some_inj.mp hnew
          exact hInv.u16 src l2 hsrc
      · intro lid l2 hl2 hn2
        rcases getElem?_concat_cases _ _ _ _ hl2 with hold | ⟨_, hnew⟩
        · exact hInv.nullzero lid l2 hold hn2
        · obtain rfl := Option.some_inj.mp hnew
          exact hInv.nullzero src l2 hsrc hn2

theorem refsTo_bind_count (b : Nat) (tgt : Option TagList) :
    (if refsTo b tgt then (1 : Nat) else 0)
      = (if tgt.bind TagList.m_data = some b then (1 : Nat) else 0) := by
  cases tgt with
  | none => simp [refsTo]
  | some l2 => simp [refsTo, Option.bind]

/-- Effect of `Deallocate ∘ shareData` on a block slot that stays live: the
data is untouched and the refcount moves by the share/drop balance. -/
theorem relink_blocks_live {s : State} (hInv : Inv s) {lid : Nat} {l : TagList}
    (hl : s.ledgers[lid]? = some (some l)) (tb : Option Nat)
    (htb : ∀ (b : Nat), tb = some b → ∃ blkT, s.blocks[b]? = some (some blkT))
    (b : Nat) (blk' : TagListData)
    (h : (Deallocate (shareData s.blocks tb) l.m_data)[b]? = some (some blk')) :
    ∃ blk, s.blocks[b]? = some (some blk) ∧ blk'.data = blk.data ∧
      blk'.count + (if l.m_data = some b then 1 else 0)
        = blk.count + (if tb = some b then 1 else 0) := by
  rcases htb' : tb with _ | bt
  · -- nothing shared
    subst htb'
    rcases hd : l.m_data with _ | bo
    · rw [hd] at h
      simp only [Deallocate, shareData] at h
      exact ⟨blk', h, rfl, by simp⟩
    · rw [hd] at h
      obtain ⟨blkO, hblkO, hcntO, hposO⟩ := hInv.liveRef hl hd
      by_cases hbb : b = bo
      · subst hbb
        rw [show shareData s.blocks none = s.blocks from rfl,
          Deallocate_getElem_self s.blocks b blkO hblkO] at h
        split at h
        · simp at h
        · obtain rfl := Option.some_inj.mp (Option.some_inj.mp h).symm
          refine ⟨blkO, hblkO, rfl, ?_⟩
          simp
          omega
      · rw [show shareData s.blocks none = s.blocks from rfl,
          Deallocate_getElem_ne s.blocks bo b hbb] at h
        refine ⟨blk', h, rfl, ?_⟩
        have h1 : ¬(some bo = some b) := fun hh => hbb (Option.some_inj.mp hh).symm
        simp [h1]
  · subst htb'
    obtain ⟨blkT, hblkT⟩ := htb bt rfl
    rcases hd : l.m_data with _ | bo
    · -- share only
      rw [hd] at h
      by_cases hbb : b = bt
      · subst hbb
        rw [show Deallocate (shareData s.blocks (some b)) none
            = shareData s.blocks (some b) from rfl,
          shareData_getElem_self s.blocks b blkT hblkT] at h
        obtain rfl := Option.some_inj.mp (Option.some_inj.mp h).symm
        exact ⟨blkT, hblkT, rfl, by simp⟩
      · rw [show Deallocate (shareData s.blocks (some bt)) none
            = shareData s.blocks (some bt) from rfl,
          shareData_getElem_ne s.blocks bt b hbb] at h
        refine ⟨blk', h, rfl, ?_⟩
        have h2 : ¬(some bt = some b) := fun hh => hbb (Option.some_inj.mp hh).symm
        simp [h2]
    · -- share bt then drop bo
      rw [hd] at h
      obtain ⟨blkO, hblkO, hcntO, hposO⟩ := hInv.liveRef hl hd
      by_cases hbo : b = bo
      · subst hbo
        by_cases hbt : b = bt
        · -- same block shared then dropped: net zero, stays live
          subst hbt
          have hshare := shareData_getElem_self s.blocks b blkO hblkO
          have hcond : ¬((⟨blkO.count + 1, blkO.data⟩ : TagListData).count ≤ 1) := by
            show ¬(blkO.count + 1 ≤ 1)
            omega
          have hdrop := Deallocate_getElem_self (shareData s.blocks (some b)) b
            ⟨blkO.count + 1, blkO.data⟩ hshare
          rw [if_neg hcond] at hdrop
          rw [hdrop] at h
          obtain rfl := Option.some_inj.mp (Option.some_inj.mp h).symm
          refine ⟨blkO, hblkO, rfl, ?_⟩
          show blkO.count + 1 - 1 + (if (some b : Option Nat) = some b then 1 else 0)
            = blkO.count + (if (some b : Option Nat) = some b then 1 else 0)
          simp
        · -- dropped, not shared
          have hsh : (shareData s.blocks (some bt))[b]? = some (some blkO) := by
            rw [shareData_getElem_ne s.blocks bt b hbt]
            exact hblkO
          rw [Deallocate_getElem_self (shareData s.blocks (some bt)) b blkO hsh] at h
          split at h
          · simp at h
          · obtain rfl := Option.some_inj.mp (Option.some_inj.mp h).symm
            refine ⟨blkO, hblkO, rfl, ?_⟩
            have h2 : ¬(some bt = some b) := fun hh => hbt (Option.some_inj.mp hh).symm
            simp [h2]
            omega
      · rw [Deallocate_getElem_ne (shareData s.blocks (some bt)) bo b hbo] at h
        by_cases hbt : b = bt
        · subst hbt
          rw [shareData_getElem_self s.blocks b blkT hblkT] at h
          obtain rfl := Option.some_inj.mp (Option.some_inj.mp h).symm
          refine ⟨blkT, hblkT, rfl, ?_⟩
          have h1 : ¬(some bo = some b) := fun hh => hbo (Option.some_inj.mp hh).symm
          simp [h1]
        · rw [shareData_getElem_ne s.blocks bt b hbt] at h
          refine ⟨blk', h, rfl, ?_⟩
          have h1 : ¬(some bo = some b) := fun hh => hbo (Option.some_inj.mp hh).symm
          have h2 : ¬(some bt = some b) := fun hh => hbt (Option.some_inj.mp hh).symm
          simp [h1, h2]

/-- Effect of `Deallocate ∘ shareData` on a slot that ends up freed: either
it already was, or it was the dropped block at refcount 1 and the new target
is a different block. -/
theorem relink_blocks_freed {s : State} (hInv : Inv s) {lid : Nat} {l : TagList}
    (hl : s.ledgers[lid]? = some (some l)) (tb : Option Nat)
    (htb : ∀ (b : Nat), tb = some b → ∃ blkT, s.blocks[b]? = some (some blkT))
    (b : Nat)
    (h : (Deallocate (shareData s.blocks tb) l.m_data)[b]? = some none) :
    s.blocks[b]? = some none ∨
      (l.m_data = some b ∧ tb ≠ some b ∧ s.refs b = 1) := by
  rcases htb' : tb with _ | bt
  · subst htb'
    rcases hd : l.m_data with _ | bo
    · rw [hd] at h
      simp only [Deallocate, shareData] at h
      exact Or.inl h
    · rw [hd] at h
      obtain ⟨blkO, hblkO, hcntO, hposO⟩ := hInv.liveRef hl hd
      by_cases hbb : b = bo
      · subst hbb
        rw [show shareData s.blocks none = s.blocks from rfl,
          Deallocate_getElem_self s.blocks b blkO hblkO] at h
        split at h
        · right
          exact ⟨rfl, by simp, by omega⟩
        · simp at h
      · rw [show shareData s.blocks none = s.blocks from rfl,
          Deallocate_getElem_ne s.blocks bo b hbb] at h
        exact Or.inl h
  · subst htb'
    obtain ⟨blkT, hblkT⟩ := htb bt rfl
    rcases hd : l.m_data with _ | bo
    · rw [hd] at h
      by_cases hbb : b = bt
      · subst hbb
        rw [show Deallocate (shareData s.blocks (some b)) none
            = shareData s.blocks (some b) from rfl,
          shareData_getElem_self s.blocks b blkT hblkT] at h
        simp at h
      · rw [show Deallocate (shareData s.blocks (some bt)) none
            = shareData s.blocks (some bt) from rfl,
          shareData_getElem_ne s.blocks bt b hbb] at h
        exact Or.inl h
    · rw [hd] at h
      obtain ⟨blkO, hblkO, hcntO, hposO⟩ := hInv.liveRef hl hd
      by_cases hbo : b = bo
      · subst hbo
        by_cases hbt : b = bt
        · subst hbt
          have hshare := shareData_getElem_self s.blocks b blkO hblkO
          have hcond : ¬((⟨blkO.count + 1, blkO.data⟩ : TagListData).count ≤ 1) := by
            show ¬(blkO.count + 1 ≤ 1)
            omega
          have hdrop := Deallocate_getElem_self (shareData s.blocks (some b)) b
            ⟨blkO.count + 1, blkO.data⟩ hshare
          rw [if_neg hcond] at hdrop
          rw [hdrop] at h
          simp at h
        · have hsh : (shareData s.blocks (some bt))[b]? = some (some blkO) := by
            rw [shareData_getElem_ne s.blocks bt b hbt]
            exact hblkO
          rw [Deallocate_getElem_self (shareData s.blocks (some bt)) b blkO hsh] at h
          split at h
          · right
            refine ⟨rfl, fun hh => hbt (Option.some_inj.mp hh).symm, by omega⟩
          · simp at h
      · rw [Deallocate_getElem_ne (shareData s.blocks (some bt)) bo b hbo] at h
        by_cases hbt : b = bt
        · subst hbt
          rw [shareData_getElem_self s.blocks b blkT hblkT] at h
          simp at h
        · rw [shareData_getElem_ne s.blocks bt b hbt] at h
          exact Or.inl h

theorem getElem?_set_eq_of_lt {α : Type} (l : List α) (i : Nat) (a : α)
    (h : i < l.length) : (l.set i a)[i]? = some a := by
  simp [List.getElem?_set_self, h]

theorem refsTo_count_eq (b : Nat) (l : TagList) :
    (if refsTo b (some l) then (1 : Nat) else 0)
      = (if l.m_data = some b then (1 : Nat) else 0) := by
  by_cases h : l.m_data = some b <;> simp [refsTo, h]

theorem inv_relink {s : State} (hInv : Inv s) (lid : Nat) (tgt : Option TagList)
    (htgt : ∀ (l2 : TagList), tgt = some l2 → l2.m_used < 65536 ∧
      (l2.m_data = none → l2.m_used = 0) ∧
      ∀ (b : Nat), l2.m_data = some b →
        ∃ blk, s.blocks[b]? = some (some blk) ∧ l2.m_used ≤ blk.data.length) :
    Inv (relink s lid tgt) := by
  unfold relink
  rcases hl : s.ledgers[lid]? with _ | (_ | l)
  · simpa only [hl]
  · simpa only [hl]
  · simp only [hl]
    have hlidlt : lid < s.ledgers.length := (List.getElem?_eq_some.mp hl).1
    have htb : ∀ (b : Nat), tgt.bind TagList.m_data = some b →
        ∃ blkT, s.blocks[b]? = some (some blkT) := by
      intro b hb
      cases tgt with
      | none => simp at hb
      | some l2 =>
        simp only [Option.bind] at hb
        obtain ⟨_, _, h3⟩ := htgt l2 rfl
        obtain ⟨blk, hblk, _⟩ := h3 b hb
        exact ⟨blk, hblk⟩
    have hrefs : ∀ (b : Nat), (s.ledgers.set lid tgt).countP (refsTo b)
        + (if l.m_data = some b then 1 else 0)
        = s.refs b + (if tgt.bind TagList.m_data = some b then 1 else 0) := by
      intro b
      have h0 := refs_set s lid (some l) tgt b hl
      rw [refsTo_count_eq, refsTo_bind_count] at h0
      exact h0
    refine ⟨?_, ?_, ?_, ?_, ?_, ?_⟩
    · intro b blk' hb
      dsimp only at hb
      obtain ⟨blk, hblk, hdata, hcnteq⟩ := relink_blocks_live hInv hl _ htb b blk' hb
      have hlive := hInv.live b blk hblk
      have hr := hrefs b
      show blk'.count = (s.ledgers.set lid tgt).countP (refsTo b)
      by_cases hO : l.m_data = some b <;> by_cases hT : tgt.bind TagList.m_data = some b <;>
        simp [hO, hT] at hr hcnteq <;> omega
    · intro b hb
      dsimp only at hb
      have hr := hrefs b
      rcases relink_blocks_freed hInv hl _ htb b hb with hfr | ⟨hO, hT, h1⟩
      · have hrz := hInv.freed b hfr
        have hT0 : ¬(tgt.bind TagList.m_data = some b) := by
          intro hT
          obtain ⟨blkT, hblkT⟩ := htb b hT
          rw [hfr] at hblkT
          simp at hblkT
        have hO0 : ¬(l.m_data = some b) := by
          intro hO
          have := countP_pos_of_elem s.ledgers lid (some l) (refsTo b) hl
            ((refsTo_some b l).mpr hO)
          have : 1 ≤ s.refs b := this
          omega
        show (s.ledgers.set lid tgt).countP (refsTo b) = 0
        simp [hO0, hT0] at hr
        omega
      · show (s.ledgers.set lid tgt).countP (refsTo b) = 0
        simp [hO, hT] at hr
        omega
    · intro b hb
      dsimp only at hb
      rw [length_Deallocate, length_shareData] at hb
      have hrz := hInv.range b hb
      have hr := hrefs b
      have hT0 : ¬(tgt.bind TagList.m_data = some b) := by
        intro hT
        obtain ⟨blkT, hblkT⟩ := htb b hT
        have := (List.getElem?_eq_some.mp hblkT).1
        omega
      have hO0 : ¬(l.m_data = some b) := by
        intro hO
        obtain ⟨blk, hblk, _, _⟩ := hInv.liveRef hl hO
        have := (List.getElem?_eq_some.mp hblk).1
        omega
      show (s.ledgers.set lid tgt).countP (refsTo b) = 0
      simp [hO0, hT0] at hr
      omega
    · intro lid2 l2 b2 blk2 hl2 hd2 hb2
      dsimp only at hl2 hb2
      obtain ⟨blk, hblk, hdata, _⟩ := relink_blocks_live hInv hl _ htb b2 blk2 hb2
      rw [hdata]
      by_cases hll : lid2 = lid
      · subst hll
        rw [getElem?_set_eq_of_lt s.ledgers lid2 tgt hlidlt] at hl2
        obtain rfl := Option.some_inj.mp hl2
        obtain ⟨_, _, h3⟩ := htgt l2 rfl
        obtain ⟨blkX, hblkX, hle⟩ := h3 b2 hd2
        obtain rfl := Option.some_inj.mp (Option.some_inj.mp (hblkX.symm.trans hblk))
        exact hle
      · rw [List.getElem?_set_ne (fun hh => hll hh.symm)] at hl2
        exact hInv.fits lid2 l2 b2 blk hl2 hd2 hblk
    · intro lid2 l2 hl2
      dsimp only at hl2
      by_cases hll : lid2 = lid
      · subst hll
        rw [getElem?_set_eq_of_lt s.ledgers lid2 tgt hlidlt] at hl2
        obtain rfl := Option.some_inj.mp hl2
        exact (htgt l2 rfl).1
      · rw [List.getElem?_set_ne (fun hh => hll hh.symm)] at hl2
        exact hInv.u16 lid2 l2 hl2
    · intro lid2 l2 hl2 hn2
      dsimp only at hl2
      by_cases hll : lid2 = lid
      · subst hll
        rw [getElem?_set_eq_of_lt s.ledgers lid2 tgt hlidlt] at hl2
        obtain rfl := Option.some_inj.mp hl2
        exact (htgt l2 rfl).2.1 hn2
      · rw [List.getElem?_set_ne (fun hh => hll hh.symm)] at hl2
        exact hInv.nullzero lid2 l2 hl2 hn2

theorem inv_destroyTagList {s : State} (hInv : Inv s) (lid : Nat) :
    Inv (destroyTagList s lid) :=
  inv_relink hInv lid none (by intro l2 h; simp at h)

theorem inv_RemoveAll {s : State} (hInv : Inv s) (lid : Nat) :
    Inv (TagList.RemoveAll s lid) := by
  refine inv_relink hInv lid (some ⟨0, none⟩) ?_
  intro l2 h
  obtain rfl := Option.some_inj.mp h.symm
  refine ⟨by simp, fun _ => rfl, ?_⟩
  intro b hb
  simp at hb

theorem inv_assignTagList {s : State} (hInv : Inv s) (dst src : Nat) :
    Inv (assignTagList s dst src) := by
  unfold assignTagList
  split
  · exact hInv
  · rcases hsrc : s.ledgers[src]? with _ | (_ | ls)
    · simpa only [hsrc]
    · simpa only [hsrc]
    · simp only [hsrc]
      refine inv_relink hInv dst (some ls) ?_
      intro l2 h
      obtain rfl := Option.some_inj.mp h.symm
      refine ⟨hInv.u16 src l2 hsrc, hInv.nullzero src l2 hsrc, ?_⟩
      intro b hb
      obtain ⟨blk, hblk, _, _⟩ := hInv.liveRef hsrc hb
      exact ⟨blk, hblk, hInv.fits src l2 b blk hsrc hb hblk⟩

theorem inv_writeBytes {s : State} (hInv : Inv s) (lid : Nat) (newBytes : List Nat)
    (newUsed : Nat) (h1 : newUsed ≤ newBytes.length) (h2 : newUsed < 65536) :
    Inv (writeBytes s lid newBytes newUsed) := by
  unfold writeBytes
  rcases hl : s.ledgers[lid]? with _ | (_ | l)
  · simpa only [hl]
  · simpa only [hl]
  · simp only [hl]
    have hlidlt : lid < s.ledgers.length := (List.getElem?_eq_some.mp hl).1
    rcases hd : l.m_data with _ | bid
    · -- null pointer: allocate a fresh block at the end of the heap
      have hrefs : ∀ (b : Nat), (s.ledgers.set lid
            (some ⟨newUsed, some s.blocks.length⟩)).countP (refsTo b)
          = s.refs b + (if b = s.blocks.length then 1 else 0) := by
        intro b
        have h0 := refs_set s lid (some l)
          (some ⟨newUsed, some s.blocks.length⟩) b hl
        rw [refsTo_count_eq, refsTo_count_eq] at h0
        simp only [hd] at h0
        by_cases hb : b = s.blocks.length
        · subst hb
          simpa using h0
        · have hne : ¬((some s.blocks.length : Option Nat) = some b) :=
            fun hh => hb (Option.some_inj.mp hh).symm
          simp [hne, hb] at h0 ⊢
          omega
      refine ⟨?_, ?_, ?_, ?_, ?_, ?_⟩
      · intro b blk' hb
        dsimp only at hb
        show blk'.count = (s.ledgers.set lid
          (some ⟨newUsed, some s.blocks.length⟩)).countP (refsTo b)
        rw [hrefs]
        rcases getElem?_concat_cases _ _ _ _ hb with hold | ⟨hb_eq, hb_val⟩
        · have hblt : b < s.blocks.length := (List.getElem?_eq_some.mp hold).1
          rw [hInv.live b blk' hold]
          simp [Nat.ne_of_lt hblt]
        · subst hb_eq
          obtain rfl := Option.some_inj.mp hb_val
          have := hInv.range s.blocks.length le_rfl
          simp [Allocate, this]
      · intro b hb
        dsimp only at hb
        show (s.ledgers.set lid
          (some ⟨newUsed, some s.blocks.length⟩)).countP (refsTo b) = 0
        rw [hrefs]
        rcases getElem?_concat_cases _ _ _ _ hb with hold | ⟨hb_eq, hb_val⟩
        · have hblt : b < s.blocks.length := (List.getElem?_eq_some.mp hold).1
          rw [hInv.freed b hold]
          simp [Nat.ne_of_lt hblt]
        · simp [Allocate] at hb_val
      · intro b hb
        dsimp only at hb
        rw [List.length_append] at hb
        simp only [List.length_singleton] at hb
        show (s.ledgers.set lid
          (some ⟨newUsed, some s.blocks.length⟩)).countP (refsTo b) = 0
        rw [hrefs]
        have : ¬(b = s.blocks.length) := by omega
        rw [hInv.range b (by omega)]
        simp [this]
      · intro lid2 l2 b2 blk2 hl2 hd2 hb2
        dsimp only at hl2 hb2
        by_cases hll : lid2 = lid
        · subst hll
          rw [getElem?_set_eq_of_lt s.ledgers lid2 _ hlidlt] at hl2
          obtain rfl := (Option.some_inj.mp (Option.some_inj.mp hl2)).symm
          simp only at hd2
          obtain rfl := Option.some_inj.mp hd2
          have hx : ((s.blocks ++ [some (Allocate newBytes)]))[s.blocks.length]?
              = some (some (Allocate newBytes)) := by simp
          rw [hx] at hb2
          obtain rfl := Option.some_inj.mp (Option.some_inj.mp hb2).symm
          simpa [Allocate] using h1
        · rw [List.getElem?_set_ne (fun hh => hll hh.symm)] at hl2
          rcases getElem?_concat_cases _ _ _ _ hb2 with hold | ⟨hb_eq, hb_val⟩
          · exact hInv.fits lid2 l2 b2 blk2 hl2 hd2 hold
          · subst hb_eq
            have : 1 ≤ s.refs s.blocks.length :=
              countP_pos_of_elem s.ledgers lid2 (some l2) (refsTo _) hl2
                ((refsTo_some _ l2).mpr hd2)
            have := hInv.range s.blocks.length le_rfl
            omega
      · intro lid2 l2 hl2
        dsimp only at hl2
        by_cases hll : lid2 = lid
        · subst hll
          rw [getElem?_set_eq_of_lt s.ledgers lid2 _ hlidlt] at hl2
          obtain rfl := (Option.some_inj.mp (Option.some_inj.mp hl2)).symm
          exact h2
        · rw [List.getElem?_set_ne (fun hh => hll hh.symm)] at hl2
          exact hInv.u16 lid2 l2 hl2
      · intro lid2 l2 hl2 hn2
        dsimp only at hl2
        by_cases hll : lid2 = lid
        · subst hll
          rw [getElem?_set_eq_of_lt s.ledgers lid2 _ hlidlt] at hl2
          obtain rfl := (Option.some_inj.mp (Option.some_inj.mp hl2)).symm
          simp at hn2
        · rw [List.getElem?_set_ne (fun hh => hll hh.symm)] at hl2
          exact hInv.nullzero lid2 l2 hl2 hn2
    · obtain ⟨blk, hblk, hcnt, hpos⟩ := hInv.liveRef hl hd
      simp only [hblk]
      split
      · -- exclusive with room: write in place
        rename_i hcond
        obtain ⟨hone, hroom⟩ := hcond
        have hbidlt : bid < s.blocks.length := (List.getElem?_eq_some.mp hblk).1
        have hrefs : ∀ (b : Nat), (s.ledgers.set lid
              (some ⟨newUsed, some bid⟩)).countP (refsTo b) = s.refs b := by
          intro b
          have h0 := refs_set s lid (some l) (some ⟨newUsed, some bid⟩) b hl
          rw [refsTo_count_eq, refsTo_count_eq] at h0
          simp only [hd] at h0
          omega
        refine ⟨?_, ?_, ?_, ?_, ?_, ?_⟩
        · intro b blk' hb
          dsimp only at hb
          show blk'.count = (s.ledgers.set lid
            (some ⟨newUsed, some bid⟩)).countP (refsTo b)
          rw [hrefs]
          by_cases hbb : b = bid
          · subst hbb
            rw [getElem?_set_eq_of_lt s.blocks b _ hbidlt] at hb
            obtain rfl := Option.some_inj.mp (Option.some_inj.mp hb).symm
            simpa using hcnt
          · rw [List.getElem?_set_ne (fun hh => hbb hh.symm)] at hb
            exact hInv.live b blk' hb
        · intro b hb
          dsimp only at hb
          show (s.ledgers.set lid (some ⟨newUsed, some bid⟩)).countP (refsTo b) = 0
          rw [hrefs]
          by_cases hbb : b = bid
          · subst hbb
            rw [getElem?_set_eq_of_lt s.blocks b _ hbidlt] at hb
            simp at hb
          · rw [List.getElem?_set_ne (fun hh => hbb hh.symm)] at hb
            exact hInv.freed b hb
        · intro b hb
          dsimp only at hb
          rw [List.length_set] at hb
          show (s.ledgers.set lid (some ⟨newUsed, some bid⟩)).countP (refsTo b) = 0
          rw [hrefs]
          exact hInv.range b hb
        · intro lid2 l2 b2 blk2 hl2 hd2 hb2
          dsimp only at hl2 hb2
          by_cases hll : lid2 = lid
          · subst hll
            rw [getElem?_set_eq_of_lt s.ledgers lid2 _ hlidlt] at hl2
            obtain rfl := (Option.some_inj.mp (Option.some_inj.mp hl2)).symm
            simp only at hd2
            obtain rfl := Option.some_inj.mp hd2
            rw [getElem?_set_eq_of_lt s.blocks bid _ hbidlt] at hb2
            obtain rfl := Option.some_inj.mp (Option.some_inj.mp hb2).symm
            simp only [List.length_append, List.length_drop]
            omega
          · rw [List.getElem?_set_ne (fun hh => hll hh.symm)] at hl2
            by_cases hbb : b2 = bid
            · -- a second referrer of an exclusively held block is impossible
              subst hbb
              have h2refs : 2 ≤ s.refs b2 :=
                countP_two_of_elem s.ledgers lid lid2 (some l) (some l2) (refsTo b2)
                  (fun hh => hll hh.symm) hl hl2
                  ((refsTo_some b2 l).mpr hd) ((refsTo_some b2 l2).mpr hd2)
              omega
            · rw [List.getElem?_set_ne (fun hh => hbb hh.symm)] at hb2
              exact hInv.fits lid2 l2 b2 blk2 hl2 hd2 hb2
        · intro lid2 l2 hl2
          dsimp only at hl2
          by_cases hll : lid2 = lid
          · subst hll
            rw [getElem?_set_eq_of_lt s.ledgers lid2 _ hlidlt] at hl2
            obtain rfl := (Option.some_inj.mp (Option.some_inj.mp hl2)).symm
            exact h2
          · rw [List.getElem?_set_ne (fun hh => hll hh.symm)] at hl2
            exact hInv.u16 lid2 l2 hl2
        · intro lid2 l2 hl2 hn2
          dsimp only at hl2
          by_cases hll : lid2 = lid
          · subst hll
            rw [getElem?_set_eq_of_lt s.ledgers lid2 _ hlidlt] at hl2
            obtain rfl := (Option.some_inj.mp (Option.some_inj.mp hl2)).symm
            simp at hn2
          · rw [List.getElem?_set_ne (fun hh => hll hh.symm)] at hl2
            exact hInv.nullzero lid2 l2 hl2 hn2
      · -- shared or too small: unshare into a fresh block
        have hbidlt : bid < s.blocks.length := (List.getElem?_eq_some.mp hblk).1
        have hlen : (Deallocate s.blocks (some bid)).length = s.blocks.length :=
          length_Deallocate s.blocks (some bid)
        have hrefs : ∀ (b : Nat), (s.ledgers.set lid
              (some ⟨newUsed, some s.blocks.length⟩)).countP (refsTo b)
              + (if b = bid then 1 else 0)
            = s.refs b + (if b = s.blocks.length then 1 else 0) := by
          intro b
          have h0 := refs_set s lid (some l)
            (some ⟨newUsed, some s.blocks.length⟩) b hl
          rw [refsTo_count_eq, refsTo_count_eq] at h0
          simp only [hd] at h0
          by_cases hb : b = bid
          · subst hb
            have hne : ¬((some s.blocks.length : Option Nat) = some b) :=
              fun hh => absurd (Option.some_inj.mp hh).symm (by omega)
            have hbne : ¬(b = s.blocks.length) := by omega
            simp [hne, hbne] at h0 ⊢
            omega
          · have hne1 : ¬((some bid : Option Nat) = some b) :=
              fun hh => hb (Option.some_inj.mp hh).symm
            by_cases hb2 : b = s.blocks.length
            · subst hb2
              simp [hne1, hb] at h0 ⊢
              omega
            · have hne2 : ¬((some s.blocks.length : Option Nat) = some b) :=
                fun hh => hb2 (Option.some_inj.mp hh).symm
              simp [hne1, hne2, hb, hb2] at h0 ⊢
              omega
        refine ⟨?_, ?_, ?_, ?_, ?_, ?_⟩
        · intro b blk' hb
          dsimp only at hb
          show blk'.count = (s.ledgers.set lid
            (some ⟨newUsed, some s.blocks.length⟩)).countP (refsTo b)
          have hr := hrefs b
          rcases getElem?_concat_cases _ _ _ _ hb with hold | ⟨hb_eq, hb_val⟩
          · have hblt : b < s.blocks.length := by
              have := (List.getElem?_eq_some.mp hold).1
              omega
            by_cases hbb : b = bid
            · subst hbb
              rw [Deallocate_getElem_self s.blocks b blk hblk] at hold
              split at hold
              · simp at hold
              · obtain rfl := Option.some_inj.mp (Option.some_inj.mp hold).symm
                simp [Nat.ne_of_lt hblt] at hr
                simp
                omega
            · rw [Deallocate_getElem_ne s.blocks bid b hbb] at hold
              have := hInv.live b blk' hold
              simp [hbb, Nat.ne_of_lt hblt] at hr
              omega
          · rw [hlen] at hb_eq
            subst hb_eq
            obtain rfl := Option.some_inj.mp hb_val
            have hz := hInv.range s.blocks.length le_rfl
            have : ¬(s.blocks.length = bid) := by omega
            simp [this] at hr
            simp [Allocate]
            omega
        · intro b hb
          dsimp only at hb
          show (s.ledgers.set lid
            (some ⟨newUsed, some s.blocks.length⟩)).countP (refsTo b) = 0
          have hr := hrefs b
          rcases getElem?_concat_cases _ _ _ _ hb with hold | ⟨hb_eq, hb_val⟩
          · have hblt : b < s.blocks.length := by
              have := (List.getElem?_eq_some.mp hold).1
              omega
            by_cases hbb : b = bid
            · subst hbb
              rw [Deallocate_getElem_self s.blocks b blk hblk] at hold
              split at hold
              · rename_i hle
                simp [Nat.ne_of_lt hblt] at hr
                omega
              · simp at hold
            · rw [Deallocate_getElem_ne s.blocks bid b hbb] at hold
              have := hInv.freed b hold
              simp [hbb, Nat.ne_of_lt hblt] at hr
              omega
          · simp [Allocate] at hb_val
        · intro b hb
          dsimp only at hb
          rw [List.length_append, hlen] at hb
          simp only [List.length_singleton] at hb
          show (s.ledgers.set lid
            (some ⟨newUsed, some s.blocks.length⟩)).countP (refsTo b) = 0
          have hr := hrefs b
          have hz := hInv.range b (by omega)
          have hne1 : ¬(b = bid) := by omega
          have hne2 : ¬(b = s.blocks.length) := by omega
          simp [hne1, hne2] at hr
          omega
        · intro lid2 l2 b2 blk2 hl2 hd2 hb2
          dsimp only at hl2 hb2
          by_cases hll : lid2 = lid
          · subst hll
            rw [getElem?_set_eq_of_lt s.ledgers lid2 _ hlidlt] at hl2
            obtain rfl := (Option.some_inj.mp (Option.some_inj.mp hl2)).symm
            simp only at hd2
            obtain rfl := Option.some_inj.mp hd2
            have hx : ((Deallocate s.blocks (some bid)
                ++ [some (Allocate newBytes)]))[s.blocks.length]?
                = some (some (Allocate newBytes)) := by
              rw [show s.blocks.length = (Deallocate s.blocks (some bid)).length
                from hlen.symm]
              simp
            rw [hx] at hb2
            obtain rfl := Option.some_inj.mp (Option.some_inj.mp hb2).symm
            simpa [Allocate] using h1
          · rw [List.getElem?_set_ne (fun hh => hll hh.symm)] at hl2
            rcases getElem?_concat_cases _ _ _ _ hb2 with hold | ⟨hb_eq, hb_val⟩
            · by_cases hbb : b2 = bid
              · subst hbb
                rw [Deallocate_getElem_self s.blocks b2 blk hblk] at hold
                split at hold
                · simp at hold
                · obtain rfl := Option.some_inj.mp (Option.some_inj.mp hold).symm
                  simpa using hInv.fits lid2 l2 b2 blk hl2 hd2 hblk
              · rw [Deallocate_getElem_ne s.blocks bid b2 hbb] at hold
                exact hInv.fits lid2 l2 b2 blk2 hl2 hd2 hold
            · rw [hlen] at hb_eq
              subst hb_eq
              have : 1 ≤ s.refs s.blocks.length :=
                countP_pos_of_elem s.ledgers lid2 (some l2) (refsTo _) hl2
                  ((refsTo_some _ l2).mpr hd2)
              have := hInv.range s.blocks.length le_rfl
              omega
        · intro lid2 l2 hl2
          dsimp only at hl2
          by_cases hll : lid2 = lid
          · subst hll
            rw [getElem?_set_eq_of_lt s.ledgers lid2 _ hlidlt] at hl2
            obtain rfl := (Option.some_inj.mp (Option.some_inj.mp hl2)).symm
            exact h2
          · rw [List.getElem?_set_ne (fun hh => hll hh.symm)] at hl2
            exact hInv.u16 lid2 l2 hl2
        · intro lid2 l2 hl2 hn2
          dsimp only at hl2
          by_cases hll : lid2 = lid
          · subst hll
            rw [getElem?_set_eq_of_lt s.ledgers lid2 _ hlidlt] at hl2
            obtain rfl := (Option.some_inj.mp (Option.some_inj.mp hl2)).symm
            simp at hn2
          · rw [List.getElem?_set_ne (fun hh => hll hh.symm)] at hl2
            exact hInv.nullzero lid2 l2 hl2 hn2

/-- Under the invariant, a handle sees exactly `m_used` bytes. -/
theorem ledgerView_length {s : State} (hInv : Inv s) (lid : Nat) (l : TagList)
    (hl : s.ledgers[lid]? = some (some l)) :
    (ledgerView s lid).length = l.m_used := by
  unfold ledgerView
  rw [hl]
  dsimp only
  rcases hd : l.m_data with _ | bid
  · simp [hd, hInv.nullzero lid l hl hd]
  · obtain ⟨blk, hblk, _, _⟩ := hInv.liveRef hl hd
    have hfits := hInv.fits lid l bid blk hl hd hblk
    simp [hd, hblk, List.length_take]
    omega

/-- The length of the payload actually written by `Add`: exactly the
reserved `bufferSize` bytes. -/
theorem addPayload_length (size : Nat) (payload : List Nat) :
    (payload.take size ++ List.replicate (size - payload.length) 0).length = size := by
  simp [List.length_take]
  omega

theorem inv_Add_ok {s s2 : State} (hInv : Inv s) (lid tid size start stop : Nat)
    (payload : List Nat)
    (h : TagList.Add s lid tid size start stop payload = .ok s2) : Inv s2 := by
  unfold TagList.Add at h
  split at h
  · exact Except.noConfusion h
  · rcases hl : s.ledgers[lid]? with _ | (_ | l) <;> simp only [hl] at h
    · obtain rfl := (Except.ok.injEq _ _ ▸ h : s = s2)
      exact hInv
    · obtain rfl := (Except.ok.injEq _ _ ▸ h : s = s2)
      exact hInv
    · have hs2 : s2 = writeBytes s lid (ledgerView s lid ++ encodeRecord
          ⟨u32 tid, u32 size, u32 start, u32 stop,
            payload.take (u32 size) ++ List.replicate (u32 size - payload.length) 0⟩)
          ((l.m_used + 16 + u32 size) % 65536) := by
        exact ((Except.ok.injEq _ _ ▸ h : _ = s2)).symm
      subst hs2
      have hview := ledgerView_length hInv lid l hl
      refine inv_writeBytes hInv lid _ _ ?_ (Nat.mod_lt _ (by omega))
      have hlen : (ledgerView s lid ++ encodeRecord
          ⟨u32 tid, u32 size, u32 start, u32 stop,
            payload.take (u32 size) ++ List.replicate (u32 size - payload.length) 0⟩).length
          = l.m_used + 16 + u32 size := by
        rw [List.length_append, length_encodeRecord]
        simp only [addPayload_length, hview]
        omega
      rw [hlen]
      exact Nat.mod_le _ _

theorem inv_stepAdd {s : State} (hInv : Inv s) (lid tid size start stop : Nat)
    (payload : List Nat) : Inv (stepAdd s lid tid size start stop payload) := by
  unfold stepAdd
  cases hres : TagList.Add s lid tid size start stop payload with
  | error e => exact hInv
  | ok s2 => exact inv_Add_ok hInv lid tid size start stop payload hres

theorem inv_AddList {s : State} (hInv : Inv s) (dst src : Nat) :
    Inv (TagList.AddList s dst src) := by
  unfold TagList.AddList
  rcases hd : s.ledgers[dst]? with _ | (_ | ld) <;>
    rcases hs : s.ledgers[src]? with _ | (_ | ls) <;>
    try exact hInv
  show Inv (writeBytes s dst (ledgerView s dst ++ ledgerView s src)
    ((ld.m_used + ls.m_used) % 65536))
  refine inv_writeBytes hInv dst _ _ ?_ (Nat.mod_lt _ (by omega))
  rw [List.length_append, ledgerView_length hInv dst ld hd,
    ledgerView_length hInv src ls hs]
  exact Nat.mod_le _ _

theorem inv_AddAtEnd {s : State} (hInv : Inv s) (lid : Nat) (adj : Int) (off : Nat) :
    Inv (TagList.AddAtEnd s lid adj off) := by
  unfold TagList.AddAtEnd
  rcases hl : s.ledgers[lid]? with _ | (_ | l) <;> simp only [hl]
  · exact hInv
  · exact hInv
  · split
    · exact inv_writeBytes hInv lid _ _ (Nat.mod_le _ _) (Nat.mod_lt _ (by omega))
    · exact hInv

theorem inv_AddAtStart {s : State} (hInv : Inv s) (lid : Nat) (adj : Int) (off : Nat) :
    Inv (TagList.AddAtStart s lid adj off) := by
  unfold TagList.AddAtStart
  rcases hl : s.ledgers[lid]? with _ | (_ | l) <;> simp only [hl]
  · exact hInv
  · exact hInv
  · split
    · exact inv_writeBytes hInv lid _ _ (Nat.mod_le _ _) (Nat.mod_lt _ (by omega))
    · exact hInv

/-- Every reachable state satisfies the invariant. -/
theorem reachable_inv {s : State} (h : Reachable s) : Inv s := by
  induction h with
  | empty => exact inv_empty
  | newL _ ih => exact inv_newTagList ih
  | copy src _ ih => exact inv_copyTagList ih src
  | assign dst src _ ih => exact inv_assignTagList ih dst src
  | destroy lid _ ih => exact inv_destroyTagList ih lid
  | add lid tid size start stop payload _ ih =>
    exact inv_stepAdd ih lid tid size start stop payload
  | addList dst src _ ih => exact inv_AddList ih dst src
  | removeAll lid _ ih => exact inv_RemoveAll ih lid
  | addAtEnd lid adj off _ ih => exact inv_AddAtEnd ih lid adj off
  | addAtStart lid adj off _ ih => exact inv_AddAtStart ih lid adj off

/-! ## Observable-view lemmas: what mutators do to each handle's bytes -/

/-- A sibling's observable bytes survive any `relink` of another handle:
dropping / sharing references never touches block data, and a block shared
with a live sibling is never freed. -/
theorem view_relink_other {s : State} (hInv : Inv s) (lid lid' : Nat)
    (hne : lid' ≠ lid) (tgt : Option TagList) :
    ledgerView (relink s lid tgt) lid' = ledgerView s lid' := by
  unfold relink
  rcases hl : s.ledgers[lid]? with _ | (_ | l)
  · rfl
  · rfl
  · unfold ledgerView
    dsimp only
    rw [List.getElem?_set_ne (fun hh => hne hh.symm)]
    rcases hl2 : s.ledgers[lid']? with _ | (_ | l2)
    · rfl
    · rfl
    · dsimp only
      rcases hd2 : l2.m_data with _ | b2
      · rfl
      · obtain ⟨blk2, hblk2, hcnt2, hpos2⟩ := hInv.liveRef hl2 hd2
        have hstep : ∃ c, (Deallocate (shareData s.blocks (tgt.bind TagList.m_data))
            l.m_data)[b2]? = some (some ⟨c, blk2.data⟩) := by
          have hsh : ∃ c1, (shareData s.blocks
              (tgt.bind TagList.m_data))[b2]? = some (some ⟨c1, blk2.data⟩)
              ∧ blk2.count ≤ c1 := by
            rcases htb : tgt.bind TagList.m_data with _ | bt
            · exact ⟨blk2.count, hblk2, le_rfl⟩
            · by_cases hbb : b2 = bt
              · subst hbb
                exact ⟨blk2.count + 1,
                  shareData_getElem_self s.blocks b2 blk2 hblk2, by omega⟩
              · rw [shareData_getElem_ne s.blocks bt b2 hbb]
                exact ⟨blk2.count, hblk2, le_rfl⟩
          obtain ⟨c1, hc1, hge⟩ := hsh
          rcases hdo : l.m_data with _ | bo
          · exact ⟨c1, hc1⟩
          · by_cases hbb : b2 = bo
            · subst hbb
              have h2refs : 2 ≤ s.refs b2 :=
                countP_two_of_elem s.ledgers lid lid' (some l) (some l2) (refsTo b2)
                  (fun hh => hne hh.symm) hl hl2
                  ((refsTo_some b2 l).mpr hdo) ((refsTo_some b2 l2).mpr hd2)
              have hcond : ¬((⟨c1, blk2.data⟩ : TagListData).count ≤ 1) := by
                show ¬(c1 ≤ 1)
                omega
              have hdrop := Deallocate_getElem_self
                (shareData s.blocks (tgt.bind TagList.m_data)) b2 ⟨c1, blk2.data⟩ hc1
              rw [if_neg hcond] at hdrop
              exact ⟨c1 - 1, hdrop⟩
            · rw [Deallocate_getElem_ne (shareData s.blocks (tgt.bind TagList.m_data))
                bo b2 hbb]
              exact ⟨c1, hc1⟩
        obtain ⟨c, hc⟩ := hstep
        dsimp only
        rw [hc, hblk2]

/-- A sibling's observable bytes survive a `writeBytes` on another handle:
an in-place write requires exclusivity, so a shared block is never written;
unsharing only moves a reference. -/
theorem view_writeBytes_other {s : State} (hInv : Inv s) (lid lid' : Nat)
    (hne : lid' ≠ lid) (nb : List Nat) (nu : Nat) :
    ledgerView (writeBytes s lid nb nu) lid' = ledgerView s lid' := by
  unfold writeBytes
  rcases hl : s.ledgers[lid]? with _ | (_ | l)
  · rfl
  · rfl
  · rcases hd : l.m_data with _ | bid
    · -- fresh allocation only: old blocks untouched
      simp only [hd]
      unfold ledgerView
      dsimp only
      rw [List.getElem?_set_ne (fun hh => hne hh.symm)]
      rcases hl2 : s.ledgers[lid']? with _ | (_ | l2)
      · rfl
      · rfl
      · dsimp only
        rcases hd2 : l2.m_data with _ | b2
        · rfl
        · obtain ⟨blk2, hblk2, _, _⟩ := hInv.liveRef hl2 hd2
          have hb2lt : b2 < s.blocks.length := (List.getElem?_eq_some.mp hblk2).1
          dsimp only
          rw [List.getElem?_append_left hb2lt]
    · obtain ⟨blk, hblk, hcnt, hpos⟩ := hInv.liveRef hl hd
      simp only [hd, hblk]
      split
      · -- in place: exclusive, so no sibling shares this block
        rename_i hcond
        unfold ledgerView
        dsimp only
        rw [List.getElem?_set_ne (fun hh => hne hh.symm)]
        rcases hl2 : s.ledgers[lid']? with _ | (_ | l2)
        · rfl
        · rfl
        · dsimp only
          rcases hd2 : l2.m_data with _ | b2
          · rfl
          · dsimp only
            by_cases hbb : b2 = bid
            · subst hbb
              have h2refs : 2 ≤ s.refs b2 :=
                countP_two_of_elem s.ledgers lid lid' (some l) (some l2) (refsTo b2)
                  (fun hh => hne hh.symm) hl hl2
                  ((refsTo_some b2 l).mpr hd) ((refsTo_some b2 l2).mpr hd2)
              omega
            · rw [List.getElem?_set_ne (fun hh => hbb hh.symm)]
      · -- unshare: data of every other block survives
        unfold ledgerView
        dsimp only
        rw [List.getElem?_set_ne (fun hh => hne hh.symm)]
        rcases hl2 : s.ledgers[lid']? with _ | (_ | l2)
        · rfl
        · rfl
        · dsimp only
          rcases hd2 : l2.m_data with _ | b2
          · rfl
          · obtain ⟨blk2, hblk2, hcnt2, _⟩ := hInv.liveRef hl2 hd2
            dsimp only
            have hb2lt : b2 < s.blocks.length := (List.getElem?_eq_some.mp hblk2).1
            have hx : (Deallocate s.blocks (some bid)
                ++ [some (Allocate nb)])[b2]?
                = (Deallocate s.blocks (some bid))[b2]? := by
              refine List.getElem?_append_left ?_
              rw [length_Deallocate]
              exact hb2lt
            rw [hx]
            by_cases hbb : b2 = bid
            · subst hbb
              have h2refs : 2 ≤ s.refs b2 :=
                countP_two_of_elem s.ledgers lid lid' (some l) (some l2) (refsTo b2)
                  (fun hh => hne hh.symm) hl hl2
                  ((refsTo_some b2 l).mpr hd) ((refsTo_some b2 l2).mpr hd2)
              obtain rfl := Option.some_inj.mp (Option.some_inj.mp
                (hblk2.symm.trans hblk))
              have hcond : ¬(blk2.count ≤ 1) := by omega
              have hdrop := Deallocate_getElem_self s.blocks b2 blk2 hblk2
              rw [if_neg hcond] at hdrop
              rw [hdrop, hblk2]
            · rw [Deallocate_getElem_ne s.blocks bid b2 hbb, hblk2]

/-- After `writeBytes`, the written handle observes exactly the new bytes
(provided the used count is set to their length). -/
theorem view_writeBytes_self {s : State} (hInv : Inv s) (lid : Nat) (l : TagList)
    (hl : s.ledgers[lid]? = some (some l)) (nb : List Nat) :
    ledgerView (writeBytes s lid nb nb.length) lid = nb := by
  have hlidlt : lid < s.ledgers.length := (List.getElem?_eq_some.mp hl).1
  unfold writeBytes
  rcases hd : l.m_data with _ | bid
  · rw [hl]
    dsimp only
    rw [hd]
    unfold ledgerView
    dsimp only
    rw [getElem?_set_eq_of_lt s.ledgers lid _ hlidlt]
    dsimp only
    have hx : (s.blocks ++ [some (Allocate nb)])[s.blocks.length]?
        = some (some (Allocate nb)) := by simp
    rw [hx]
    exact List.take_length nb
  · obtain ⟨blk, hblk, hcnt, hpos⟩ := hInv.liveRef hl hd
    have hbidlt : bid < s.blocks.length := (List.getElem?_eq_some.mp hblk).1
    rw [hl]
    dsimp only
    rw [hd]
    simp only [hblk]
    split
    · unfold ledgerView
      dsimp only
      rw [getElem?_set_eq_of_lt s.ledgers lid _ hlidlt]
      dsimp only
      rw [getElem?_set_eq_of_lt s.blocks bid _ hbidlt]
      exact List.take_left nb _
    · unfold ledgerView
      dsimp only
      rw [getElem?_set_eq_of_lt s.ledgers lid _ hlidlt]
      dsimp only
      have hx : (Deallocate s.blocks (some bid)
          ++ [some (Allocate nb)])[s.blocks.length]?
          = some (some (Allocate nb)) := by
        rw [show s.blocks.length = (Deallocate s.blocks (some bid)).length
          from (length_Deallocate s.blocks (some bid)).symm]
        simp
      rw [hx]
      exact List.take_length nb

/-- Appending a tag to one handle never changes what another handle sees. -/
theorem view_stepAdd_other {s : State} (hInv : Inv s) (lid lid' : Nat)
    (hne : lid' ≠ lid) (tid size start stop : Nat) (payload : List Nat) :
    ledgerView (stepAdd s lid tid size start stop payload) lid'
      = ledgerView s lid' := by
  unfold stepAdd
  cases hres : TagList.Add s lid tid size start stop payload with
  | error e => rfl
  | ok s2 =>
    show ledgerView s2 lid' = ledgerView s lid'
    unfold TagList.Add at hres
    split at hres
    · exact Except.noConfusion hres
    · rcases hl : s.ledgers[lid]? with _ | (_ | l) <;> simp only [hl] at hres
      · obtain rfl := (Except.ok.injEq _ _ ▸ hres : s = s2)
        rfl
      · obtain rfl := (Except.ok.injEq _ _ ▸ hres : s = s2)
        rfl
      · have hs2 : s2 = writeBytes s lid (ledgerView s lid ++ encodeRecord
            ⟨u32 tid, u32 size, u32 start, u32 stop,
              payload.take (u32 size) ++ List.replicate (u32 size - payload.length) 0⟩)
            ((l.m_used + 16 + u32 size) % 65536) :=
          ((Except.ok.injEq _ _ ▸ hres : _ = s2)).symm
        subst hs2
        exact view_writeBytes_other hInv lid lid' hne _ _

/-- Clearing one handle never changes what another handle sees. -/
theorem view_RemoveAll_other {s : State} (hInv : Inv s) (lid lid' : Nat)
    (hne : lid' ≠ lid) :
    ledgerView (TagList.RemoveAll s lid) lid' = ledgerView s lid' :=
  view_relink_other hInv lid lid' hne (some ⟨0, none⟩)

/-! ## Characterizations of the public operations -/

theorem adjustOffset_lt (delta : Int) (x : Nat) :
    adjustOffset delta x < 4294967296 := by
  unfold adjustOffset
  have hnn : 0 ≤ ((x : Int) + delta).emod 4294967296 :=
    Int.emod_nonneg _ (by omega)
  have hlt : ((x : Int) + delta).emod 4294967296 < 4294967296 :=
    Int.emod_lt_of_pos _ (by omega)
  omega

theorem shiftRecord_WF (delta : Int) (r : TagRecord) (h : r.WF) :
    (shiftRecord delta r).WF := by
  obtain ⟨h1, h2, h3, h4, h5⟩ := h
  exact ⟨h1, h2, adjustOffset_lt delta r.start, adjustOffset_lt delta r.stop, h5⟩

theorem shiftRecord_payload (delta : Int) (r : TagRecord) :
    (shiftRecord delta r).payload = r.payload := rfl

/-- The packed size of a record list is unchanged by any offset rewrite. -/
theorem length_encodeList_mapIf (p : TagRecord → Bool) (d : Int)
    (rs : List TagRecord) :
    (encodeList (rs.map (fun r => if p r then shiftRecord d r else r))).length
      = (encodeList rs).length := by
  induction rs with
  | nil => rfl
  | cons r rs ih =>
    simp only [List.map_cons, encodeList, List.length_append, ih,
      length_encodeRecord]
    by_cases hp : p r <;> simp [hp, shiftRecord_payload]

theorem map_if_eq_self (p : TagRecord → Bool) (d : Int) (rs : List TagRecord)
    (h : ∀ r ∈ rs, p r = false) :
    rs.map (fun r => if p r then shiftRecord d r else r) = rs := by
  induction rs with
  | nil => rfl
  | cons r rs ih =>
    have hr := h r (List.mem_cons_self r rs)
    simp only [List.map_cons, hr, Bool.false_eq_true, if_false]
    rw [ih (fun x hx => h x (List.mem_cons_of_mem r hx))]

/-- `Add` with a valid range reduces to a `writeBytes` of the encoded
record. -/
theorem Add_ok_state {s : State} {lid : Nat} {l : TagList}
    (hl : s.ledgers[lid]? = some (some l)) (tid size start stop : Nat)
    (payload : List Nat) (hse : u32 start ≤ u32 stop) :
    TagList.Add s lid tid size start stop payload
      = .ok (writeBytes s lid (ledgerView s lid ++ encodeRecord
          ⟨u32 tid, u32 size, u32 start, u32 stop,
            payload.take (u32 size) ++ List.replicate (u32 size - payload.length) 0⟩)
          ((l.m_used + 16 + u32 size) % 65536)) := by
  unfold TagList.Add
  rw [if_neg (by omega), hl]

/-- The bytes a successful, non-wrapping `Add` leaves behind: the old view
with the packed new record appended. -/
theorem view_Add_ok {s : State} (hInv : Inv s) {lid : Nat} {l : TagList}
    (hl : s.ledgers[lid]? = some (some l)) (tid size start stop : Nat)
    (payload : List Nat) (hse : u32 start ≤ u32 stop)
    (hnw : l.m_used + 16 + u32 size < 65536) :
    ∃ s2, TagList.Add s lid tid size start stop payload = .ok s2 ∧
      ledgerView s2 lid = ledgerView s lid ++ encodeRecord
        ⟨u32 tid, u32 size, u32 start, u32 stop,
          payload.take (u32 size) ++ List.replicate (u32 size - payload.length) 0⟩ := by
  refine ⟨_, Add_ok_state hl tid size start stop payload hse, ?_⟩
  have hview := ledgerView_length hInv lid l hl
  have hlen : (ledgerView s lid ++ encodeRecord
      ⟨u32 tid, u32 size, u32 start, u32 stop,
        payload.take (u32 size) ++ List.replicate (u32 size - payload.length) 0⟩).length
      = l.m_used + 16 + u32 size := by
    rw [List.length_append, length_encodeRecord]
    simp only [addPayload_length, hview]
    omega
  rw [show (l.m_used + 16 + u32 size) % 65536 = l.m_used + 16 + u32 size
    from Nat.mod_eq_of_lt hnw, ← hlen]
  exact view_writeBytes_self hInv lid l hl _

/-- The bytes a non-wrapping merge leaves in the destination: its own bytes
followed by the source's, verbatim. -/
theorem view_AddList {s : State} (hInv : Inv s) {dst src : Nat} {ld ls : TagList}
    (hd : s.ledgers[dst]? = some (some ld)) (hs : s.ledgers[src]? = some (some ls))
    (hnw : ld.m_used + ls.m_used < 65536) :
    ledgerView (TagList.AddList s dst src) dst
      = ledgerView s dst ++ ledgerView s src := by
  unfold TagList.AddList
  rw [hd, hs]
  dsimp only
  have hlen : (ledgerView s dst ++ ledgerView s src).length
      = ld.m_used + ls.m_used := by
    rw [List.length_append, ledgerView_length hInv dst ld hd,
      ledgerView_length hInv src ls hs]
  rw [show (ld.m_used + ls.m_used) % 65536 = ld.m_used + ls.m_used
    from Nat.mod_eq_of_lt hnw, ← hlen]
  exact view_writeBytes_self hInv dst ld hd _

/-- Records after `AddAtEnd`: exactly the records lying entirely beyond the
boundary are shifted; the rest are untouched. -/
theorem records_AddAtEnd {s : State} (hInv : Inv s) {lid : Nat} {l : TagList}
    (hl : s.ledgers[lid]? = some (some l)) (rs : List TagRecord)
    (hv : ledgerView s lid = encodeList rs) (hwf : ∀ r ∈ rs, r.WF)
    (delta : Int) (boundary : Nat) :
    ledgerRecords (TagList.AddAtEnd s lid delta boundary) lid
      = rs.map (fun r => if beyond boundary r then shiftRecord delta r else r) := by
  have hrecs : ledgerRecords s lid = rs := by
    unfold ledgerRecords
    rw [hv]
    exact decodeAll_encode rs hwf
  have hwf2 : ∀ r ∈ rs.map (fun r => if beyond boundary r then shiftRecord delta r else r),
      r.WF := by
    intro r hr
    obtain ⟨r0, hr0, hre⟩ := List.mem_map.mp hr
    by_cases hb : beyond boundary r0
    · rw [← hre]
      simp only [hb, if_true]
      exact shiftRecord_WF delta r0 (hwf r0 hr0)
    · rw [← hre]
      simp only [hb, if_false]
      exact hwf r0 hr0
  unfold TagList.AddAtEnd
  rw [hl]
  dsimp only
  unfold TagList.IsDirtyAtEnd
  rw [hrecs]
  by_cases hdirty : rs.any (beyond boundary)
  · rw [if_pos hdirty]
    have hu := hInv.u16 lid l hl
    have hvl := ledgerView_length hInv lid l hl
    have hlen : (encodeList (rs.map
        (fun r => if beyond boundary r then shiftRecord delta r else r))).length
        = l.m_used := by
      rw [length_encodeList_mapIf, ← hv, hvl]
    have hmod : (encodeList (rs.map
        (fun r => if beyond boundary r then shiftRecord delta r else r))).length % 65536
        = (encodeList (rs.map
          (fun r => if beyond boundary r then shiftRecord delta r else r))).length := by
      rw [hlen]
      exact Nat.mod_eq_of_lt hu
    unfold ledgerRecords
    rw [hmod, view_writeBytes_self hInv lid l hl _]
    exact decodeAll_encode _ hwf2
  · rw [if_neg hdirty]
    rw [hrecs, map_if_eq_self _ delta rs (by simpa using hdirty)]

/-- Records after `AddAtStart`: symmetric to `records_AddAtEnd`. -/
theorem records_AddAtStart {s : State} (hInv : Inv s) {lid : Nat} {l : TagList}
    (hl : s.ledgers[lid]? = some (some l)) (rs : List TagRecord)
    (hv : ledgerView s lid = encodeList rs) (hwf : ∀ r ∈ rs, r.WF)
    (delta : Int) (boundary : Nat) :
    ledgerRecords (TagList.AddAtStart s lid delta boundary) lid
      = rs.map (fun r => if before boundary r then shiftRecord delta r else r) := by
  have hrecs : ledgerRecords s lid = rs := by
    unfold ledgerRecords
    rw [hv]
    exact decodeAll_encode rs hwf
  have hwf2 : ∀ r ∈ rs.map (fun r => if before boundary r then shiftRecord delta r else r),
      r.WF := by
    intro r hr
    obtain ⟨r0, hr0, hre⟩ := List.mem_map.mp hr
    by_cases hb : before boundary r0
    · rw [← hre]
      simp only [hb, if_true]
      exact shiftRecord_WF delta r0 (hwf r0 hr0)
    · rw [← hre]
      simp only [hb, if_false]
      exact hwf r0 hr0
  unfold TagList.AddAtStart
  rw [hl]
  dsimp only
  unfold TagList.IsDirtyAtStart
  rw [hrecs]
  by_cases hdirty : rs.any (before boundary)
  · rw [if_pos hdirty]
    have hu := hInv.u16 lid l hl
    have hvl := ledgerView_length hInv lid l hl
    have hlen : (encodeList (rs.map
        (fun r => if before boundary r then shiftRecord delta r else r))).length
        = l.m_used := by
      rw [length_encodeList_mapIf, ← hv, hvl]
    have hmod : (encodeList (rs.map
        (fun r => if before boundary r then shiftRecord delta r else r))).length % 65536
        = (encodeList (rs.map
          (fun r => if before boundary r then shiftRecord delta r else r))).length := by
      rw [hlen]
      exact Nat.mod_eq_of_lt hu
    unfold ledgerRecords
    rw [hmod, view_writeBytes_self hInv lid l hl _]
    exact decodeAll_encode _ hwf2
  · rw [if_neg hdirty]
    rw [hrecs, map_if_eq_self _ delta rs (by simpa using hdirty)]

/-- Every well-formed record overlaps the full coordinate window. -/
theorem filter_overlaps_full (rs : List TagRecord) (h : ∀ r ∈ rs, r.WF) :
    rs.filter (overlaps 0 4294967295) = rs := by
  refine List.filter_eq_self.mpr ?_
  intro r hr
  obtain ⟨_, _, h3, _, _⟩ := h r hr
  simp [overlaps]
  omega

/-- Iterating a ledger over the full coordinate window. -/
def iterFull (s : State) (lid : Nat) : List TagRecord :=
  collectI (TagList.Begin s lid 0 4294967295)

theorem iterFull_records (s : State) (lid : Nat)
    (h : ∀ r ∈ ledgerRecords s lid, r.WF) :
    iterFull s lid = ledgerRecords s lid := by
  unfold iterFull
  rw [collectI_Begin]
  exact filter_overlaps_full _ h

/-- A record surfacing at the head of `skipMiss` matches the window. -/
theorem skipMiss_head (qs qe : Nat) (recs : List TagRecord) (r : TagRecord)
    (rest : List TagRecord) (h : skipMiss qs qe recs = r :: rest) :
    overlaps qs qe r = true := by
  induction recs with
  | nil => simp [skipMiss] at h
  | cons x t ih =>
    by_cases hov : overlaps qs qe x = true
    · rw [skipMiss_cons_pos qs qe x t hov] at h
      obtain rfl : x = r := (List.cons.injEq .. ▸ h).1
      exact hov
    · rw [skipMiss_cons_neg qs qe x t (by simpa using hov)] at h
      exact ih h

/-- `shareData` never touches block bytes. -/
theorem shareData_data_preserved (blocks : List (Option TagListData))
    (ob : Option Nat) (b : Nat) (blk : TagListData)
    (h : blocks[b]? = some (some blk)) :
    ∃ c, (shareData blocks ob)[b]? = some (some ⟨c, blk.data⟩) := by
  rcases ob with _ | bt
  · exact ⟨blk.count, h⟩
  · by_cases hbb : b = bt
    · subst hbb
      exact ⟨blk.count + 1, shareData_getElem_self blocks b blk h⟩
    · rw [shareData_getElem_ne blocks bt b hbb]
      exact ⟨blk.count, h⟩

/-- Copy construction changes no existing handle's observable bytes. -/
theorem view_copyTagList_old (s : State) (src lid' : Nat)
    (hlt : lid' < s.ledgers.length) :
    ledgerView (copyTagList s src) lid' = ledgerView s lid' := by
  unfold copyTagList
  rcases hsrc : s.ledgers[src]? with _ | (_ | l)
  · rfl
  · rfl
  · unfold ledgerView
    dsimp only
    rw [List.getElem?_append_left hlt]
    rcases hl2 : s.ledgers[lid']? with _ | (_ | l2)
    · rfl
    · rfl
    · dsimp only
      rcases hd2 : l2.m_data with _ | b2
      · rfl
      · dsimp only
        rcases hb2 : s.blocks[b2]? with _ | (_ | blk2)
        · rcases hsh : (shareData s.blocks l.m_data)[b2]? with _ | (_ | blkX)
          · rfl
          · rfl
          · exfalso
            rcases hmd : l.m_data with _ | bt
            · rw [hmd] at hsh
              rw [show shareData s.blocks none = s.blocks from rfl] at hsh
              rw [hb2] at hsh
              exact Option.noConfusion hsh
            · rw [hmd] at hsh
              by_cases hbb : b2 = bt
              · subst hbb
                simp [shareData, hb2] at hsh
              · rw [shareData_getElem_ne s.blocks bt b2 hbb, hb2] at hsh
                exact Option.noConfusion hsh
        · rcases hsh : (shareData s.blocks l.m_data)[b2]? with _ | (_ | blkX)
          · rfl
          · rfl
          · exfalso
            rcases hmd : l.m_data with _ | bt
            · rw [hmd] at hsh
              rw [show shareData s.blocks none = s.blocks from rfl] at hsh
              rw [hb2] at hsh
              simp at hsh
            · rw [hmd] at hsh
              by_cases hbb : b2 = bt
              · subst hbb
                simp [shareData, hb2] at hsh
              · rw [shareData_getElem_ne s.blocks bt b2 hbb, hb2] at hsh
                simp at hsh
        · obtain ⟨c, hc⟩ := shareData_data_preserved s.blocks l.m_data b2 blk2 hb2
          rw [hc]

/-- The fresh copy observes exactly the source's bytes. -/
theorem view_copyTagList_new (s : State) (src : Nat) {l : TagList}
    (hsrc : s.ledgers[src]? = some (some l)) :
    ledgerView (copyTagList s src) s.ledgers.length = ledgerView s src := by
  unfold copyTagList
  rw [hsrc]
  unfold ledgerView
  dsimp only
  rw [hsrc, show (s.ledgers ++ [some l])[s.ledgers.length]? = some (some l) by simp]
  dsimp only
  rcases hd : l.m_data with _ | bid
  · rfl
  · dsimp only
    rcases hb : s.blocks[bid]? with _ | (_ | blk)
    · rcases hsh : (shareData s.blocks (some bid))[bid]? with _ | (_ | blkX)
      · rfl
      · rfl
      · exfalso
        simp [shareData, hb] at hsh
    · rcases hsh : (shareData s.blocks (some bid))[bid]? with _ | (_ | blkX)
      · rfl
      · rfl
      · exfalso
        simp [shareData, hb] at hsh
    · obtain ⟨c, hc⟩ := shareData_data_preserved s.blocks (some bid) bid blk hb
      rw [hc]

/-- The copy's handle slots: old slots unchanged, the new slot shares the
source handle verbatim. -/
theorem copyTagList_ledgers (s : State) (src : Nat) {l : TagList}
    (hsrc : s.ledgers[src]? = some (some l)) :
    (copyTagList s src).ledgers[s.ledgers.length]? = some (some l) ∧
    ∀ (lid' : Nat), lid' < s.ledgers.length →
      (copyTagList s src).ledgers[lid']? = s.ledgers[lid']? := by
  unfold copyTagList
  rw [hsrc]
  constructor
  · simp
  · intro lid' hlt
    exact List.getElem?_append_left hlt

/-- This handle's used-byte count, when the handle is live. -/
def usedOf (s : State) (lid : Nat) : Option Nat :=
  match s.ledgers[lid]? with
  | some (some l) => some l.m_used
  | _ => none

theorem usedOf_writeBytes (s : State) (lid : Nat) (l : TagList)
    (hl : s.ledgers[lid]? = some (some l)) (nb : List Nat) (nu : Nat) :
    usedOf (writeBytes s lid nb nu) lid = some nu := by
  have hlidlt : lid < s.ledgers.length := (List.getElem?_eq_some.mp hl).1
  unfold writeBytes
  rw [hl]
  dsimp only
  rcases hd : l.m_data with _ | bid
  · unfold usedOf
    dsimp only
    rw [getElem?_set_eq_of_lt s.ledgers lid _ hlidlt]
  · rcases hb : s.blocks[bid]? with _ | (_ | blk) <;> simp only [hb]
    · unfold usedOf
      dsimp only
      rw [getElem?_set_eq_of_lt s.ledgers lid _ hlidlt]
    · unfold usedOf
      dsimp only
      rw [getElem?_set_eq_of_lt s.ledgers lid _ hlidlt]
    · split <;>
      · unfold usedOf
        dsimp only
        rw [getElem?_set_eq_of_lt s.ledgers lid _ hlidlt]

/-! ## Sample states for witnesses -/

/-- One default-constructed ledger handle. -/
def s0L : State := newTagList State.empty

/-- A ledger holding two zero-payload tags at offsets `[10,20]` and
`[30,40]` — the spec's rebase example. -/
def sTwo : State := stepAdd (stepAdd s0L 0 7 0 10 20 []) 0 7 0 30 40 []

/-- A ledger holding tags at `[0,10]`, `[20,30]`, `[40,50]` — the spec's
range-filter example. -/
def sThree : State :=
  stepAdd (stepAdd (stepAdd s0L 0 1 0 0 10 []) 0 1 0 20 30 []) 0 1 0 40 50 []

/-- Two independent ledgers, each holding one one-byte tag. -/
def sPair : State :=
  stepAdd (stepAdd (newTagList (newTagList State.empty)) 0 1 1 10 20 [5]) 1 2 1 30 40 [6]

/-- A ledger holding one four-byte tag. -/
def sOne : State := stepAdd s0L 0 3 4 100 200 [9, 8, 7, 6]

theorem s0L_reachable : Reachable s0L :=
  Reachable.newL Reachable.empty

theorem sTwo_reachable : Reachable sTwo :=
  Reachable.add 0 7 0 30 40 [] (Reachable.add 0 7 0 10 20 [] s0L_reachable)

theorem sThree_reachable : Reachable sThree :=
  Reachable.add 0 1 0 40 50 [] (Reachable.add 0 1 0 20 30 []
    (Reachable.add 0 1 0 0 10 [] s0L_reachable))

theorem sPair_reachable : Reachable sPair :=
  Reachable.add 1 2 1 30 40 [6] (Reachable.add 0 1 1 10 20 [5]
    (Reachable.newL (Reachable.newL Reachable.empty)))

theorem sOne_reachable : Reachable sOne :=
  Reachable.add 0 3 4 100 200 [9, 8, 7, 6] s0L_reachable

/-- Like `view_writeBytes_self`, but for a used count smaller than the
written bytes: the handle then observes only the first `nu` bytes.  This is
what happens when the `uint16_t` used counter wraps. -/
theorem view_writeBytes_take {s : State} (hInv : Inv s) (lid : Nat) (l : TagList)
    (hl : s.ledgers[lid]? = some (some l)) (nb : List Nat) (nu : Nat)
    (h : nu ≤ nb.length) :
    ledgerView (writeBytes s lid nb nu) lid = nb.take nu := by
  have hlidlt : lid < s.ledgers.length := (List.getElem?_eq_some.mp hl).1
  unfold writeBytes
  rcases hd : l.m_data with _ | bid
  · rw [hl]
    dsimp only
    rw [hd]
    unfold ledgerView
    dsimp only
    rw [getElem?_set_eq_of_lt s.ledgers lid _ hlidlt]
    dsimp only
    have hx : (s.blocks ++ [some (Allocate nb)])[s.blocks.length]?
        = some (some (Allocate nb)) := by simp
    rw [hx]
    rfl
  · obtain ⟨blk, hblk, hcnt, hpos⟩ := hInv.liveRef hl hd
    have hbidlt : bid < s.blocks.length := (List.getElem?_eq_some.mp hblk).1
    rw [hl]
    dsimp only
    rw [hd]
    simp only [hblk]
    split
    · unfold ledgerView
      dsimp only
      rw [getElem?_set_eq_of_lt s.ledgers lid _ hlidlt]
      dsimp only
      rw [getElem?_set_eq_of_lt s.blocks bid _ hbidlt]
      exact List.take_append_of_le_length h
    · unfold ledgerView
      dsimp only
      rw [getElem?_set_eq_of_lt s.ledgers lid _ hlidlt]
      dsimp only
      have hx : (Deallocate s.blocks (some bid)
          ++ [some (Allocate nb)])[s.blocks.length]?
          = some (some (Allocate nb)) := by
        rw [show s.blocks.length = (Deallocate s.blocks (some bid)).length
          from (length_Deallocate s.blocks (some bid)).symm]
        simp
      rw [hx]
      rfl

/-- A stream shorter than one record header decodes to nothing. -/
theorem decodeAll_of_short (bytes : List Nat) (h : bytes.length < 16) :
    decodeAll bytes = [] := by
  match hr : readHeader bytes with
  | some (r, rest) =>
    have := readHeader_some_len bytes r rest hr
    omega
  | none =>
    unfold decodeAll
    rcases bytes with _ | ⟨x, t⟩
    · rfl
    · simp [decodeAux, hr]

/-! ### States exercising the 16-bit wrap of `m_used` -/

/-- A 65512-byte tag: together with its 16-byte header it fills the ledger
to 65528 of the 65535 bytes the `uint16_t` used counter can express. -/
def recBigA : TagRecord := ⟨1, 65512, 0, 5, List.replicate 65512 0⟩

/-- A small zero-payload tag. -/
def recSmallB : TagRecord := ⟨2, 0, 7, 9, []⟩

/-- Two fresh handles. -/
def sTwoLedgers : State := newTagList (newTagList State.empty)

/-- Ledger 0 holds `recBigA` (packed size 65528), ledger 1 holds
`recSmallB` (packed size 16): merging them overflows the 16-bit counter. -/
def sBig : State :=
  stepAdd (stepAdd sTwoLedgers 0 1 65512 0 5 []) 1 2 0 7 9 []

/-- One `Add` whose packed size is exactly 65536: the used counter wraps to
zero. -/
def sWrap : State := stepAdd s0L 0 1 65520 0 5 []

theorem sTwoLedgers_reachable : Reachable sTwoLedgers :=
  Reachable.newL (Reachable.newL Reachable.empty)

theorem sBig_reachable : Reachable sBig :=
  Reachable.add 1 2 0 7 9 [] (Reachable.add 0 1 65512 0 5 [] sTwoLedgers_reachable)

theorem sWrap_reachable : Reachable sWrap :=
  Reachable.add 0 1 65520 0 5 [] s0L_reachable

/-! ## The claims -/

/-- C5: Dirty-check no-op preserves sharing — if no record of the ledger
lies beyond the rebase boundary (respectively before the prepend boundary),
`AddAtEnd` (respectively `AddAtStart`) leaves the whole state untouched: the
same storage reference, the same shared block identity, no unsharing copy. -/
theorem c5_noop_rebase_preserves_sharing (s : State) (lid : Nat)
    (dE dS : Int) (bE bS : Nat) :
    ((ledgerRecords s lid).any (beyond bE) = false →
      TagList.AddAtEnd s lid dE bE = s) ∧
    ((ledgerRecords s lid).any (before bS) = false →
      TagList.AddAtStart s lid dS bS = s) := by
  constructor
  · intro h
    unfold TagList.AddAtEnd
    rcases hl : s.ledgers[lid]? with _ | (_ | l)
    · rfl
    · rfl
    · dsimp only
      rw [if_neg (by simp [TagList.IsDirtyAtEnd, h])]
  · intro h
    unfold TagList.AddAtStart
    rcases hl : s.ledgers[lid]? with _ | (_ | l)
    · rfl
    · rfl
    · dsimp only
      rw [if_neg (by simp [TagList.IsDirtyAtStart, h])]

/-- Witness for C5 at the spec's two-record ledger: boundary 100 is beyond
every record, boundary 0 is before none, so both rebases are no-ops. -/
theorem c5_noop_rebase_preserves_sharing_witness :
    TagList.AddAtEnd sTwo 0 5 100 = sTwo ∧ TagList.AddAtStart sTwo 0 5 0 = sTwo :=
  ⟨(c5_noop_rebase_preserves_sharing sTwo 0 5 5 100 0).1 (by decide),
   (c5_noop_rebase_preserves_sharing sTwo 0 5 5 100 0).2 (by decide)⟩

/-- C6: Range filter — `Begin(qs, qe)` yields, in insertion order, exactly
the records whose `[start, end]` range overlaps `[qs, qe]`; in particular,
on records `[0,10]`, `[20,30]`, `[40,50]`, `Begin(15, 45)` yields exactly
the latter two. -/
theorem c6_range_filter :
    (∀ (s : State) (lid qs qe : Nat),
      collectI (TagList.Begin s lid qs qe)
        = (ledgerRecords s lid).filter (overlaps qs qe)) ∧
    collectI (TagList.Begin sThree 0 15 45)
      = [⟨1, 0, 20, 30, []⟩, ⟨1, 0, 40, 50, []⟩] :=
  ⟨fun s lid qs qe => collectI_Begin s lid qs qe, by decide⟩

/-- C7: Append range validation — `Add` with `start > end` fails with
`InvalidRange` and leaves the ledger untouched; with `start ≤ end`
(zero-length tags included) it never fails with `InvalidRange`. -/
theorem c7_invalid_range (s : State) (lid tid size start stop : Nat)
    (payload : List Nat) (hs : start < 4294967296) (he : stop < 4294967296) :
    (stop < start →
      TagList.Add s lid tid size start stop payload = .error .invalidRange ∧
      stepAdd s lid tid size start stop payload = s) ∧
    (start ≤ stop →
      ∃ s2, TagList.Add s lid tid size start stop payload = .ok s2) := by
  have hu1 : u32 start = start := Nat.mod_eq_of_lt hs
  have hu2 : u32 stop = stop := Nat.mod_eq_of_lt he
  constructor
  · intro hlt
    have herr : TagList.Add s lid tid size start stop payload
        = .error .invalidRange := by
      unfold TagList.Add
      rw [if_pos (by rw [hu1, hu2]; omega)]
    refine ⟨herr, ?_⟩
    unfold stepAdd
    rw [herr]
  · intro hle
    unfold TagList.Add
    rw [if_neg (by rw [hu1, hu2]; omega)]
    rcases s.ledgers[lid]? with _ | (_ | l)
    · exact ⟨s, rfl⟩
    · exact ⟨s, rfl⟩
    · exact ⟨_, rfl⟩

/-- Witness for C7: `start = 5 > 3 = end` is rejected without effect;
`start = 2 ≤ 3 = end` succeeds. -/
theorem c7_invalid_range_witness :
    (TagList.Add s0L 0 1 0 5 3 [] = .error .invalidRange ∧
      stepAdd s0L 0 1 0 5 3 [] = s0L) ∧
    (∃ s2, TagList.Add s0L 0 1 0 2 3 [] = .ok s2) :=
  ⟨(c7_invalid_range s0L 0 1 0 5 3 [] (by decide) (by decide)).1 (by decide),
   (c7_invalid_range s0L 0 1 0 2 3 [] (by decide) (by decide)).2 (by decide)⟩

/-- C8: Iterator exhaustion — `Next` on an iterator with `HasNext` false
fails with `IteratorExhausted`; with `HasNext` true it succeeds; and a
record yielded by an iterator from `Begin` matches the query window. -/
theorem c8_iterator_exhaustion :
    (∀ (it : Iterator), it.HasNext = false →
      it.Next = .error .iteratorExhausted) ∧
    (∀ (it : Iterator), it.HasNext = true →
      ∃ r it2, it.Next = .ok (r, it2)) ∧
    (∀ (s : State) (lid qs qe : Nat) (r : TagRecord) (it2 : Iterator),
      (TagList.Begin s lid qs qe).Next = .ok (r, it2) →
      overlaps qs qe r = true) := by
  refine ⟨?_, ?_, ?_⟩
  · intro it h
    unfold Iterator.HasNext at h
    unfold Iterator.Next
    rcases hit : it.recs with _ | ⟨r, rest⟩
    · rfl
    · rw [hit] at h
      simp at h
  · intro it h
    unfold Iterator.HasNext at h
    rcases hit : it.recs with _ | ⟨r, rest⟩
    · rw [hit] at h
      simp at h
    · refine ⟨r, ⟨skipMiss it.m_offsetStart it.m_offsetEnd rest,
        it.m_offsetStart, it.m_offsetEnd⟩, ?_⟩
      unfold Iterator.Next
      rw [hit]
  · intro s lid qs qe r it2 h
    unfold TagList.Begin Iterator.Next at h
    rcases hsk : skipMiss qs qe (ledgerRecords s lid) with _ | ⟨x, rest⟩
    · rw [hsk] at h
      exact Except.noConfusion h
    · rw [hsk] at h
      simp only [Except.ok.injEq, Prod.mk.injEq] at h
      obtain ⟨rfl, -⟩ := h
      exact skipMiss_head qs qe (ledgerRecords s lid) _ rest hsk

/-- Witness for C8: an exhausted iterator fails, a pending one succeeds,
and the first record yielded on the `[15,45]` window overlaps it. -/
theorem c8_iterator_exhaustion_witness :
    Iterator.Next ⟨[], 0, 0⟩ = .error .iteratorExhausted ∧
    (∃ r it2, Iterator.Next ⟨[⟨1, 0, 2, 3, []⟩], 0, 10⟩ = .ok (r, it2)) ∧
    overlaps 15 45 ⟨1, 0, 20, 30, []⟩ = true :=
  ⟨c8_iterator_exhaustion.1 ⟨[], 0, 0⟩ (by decide),
   c8_iterator_exhaustion.2.1 ⟨[⟨1, 0, 2, 3, []⟩], 0, 10⟩ (by decide),
   c8_iterator_exhaustion.2.2 sThree 0 15 45 ⟨1, 0, 20, 30, []⟩
     ⟨[⟨1, 0, 40, 50, []⟩], 15, 45⟩ rfl⟩

/-- C2, amended: Merge fidelity — after `A.Add(B)` (raw byte-range merge),
A's bytes are exactly its old bytes followed by B's, and iterating A over
the full coordinate range yields exactly A's records in order followed by
B's records in order, each byte-for-byte identical to its source — PROVIDED
the combined packed size fits the `uint16_t` used counter
(`usedA + usedB < 65536`).  Without that proviso the claim is false: the
counter wraps and the destination's view truncates (see the
counterexample). -/
theorem c2_merge_fidelity (s : State) (dst src : Nat) (ld ls : TagList)
    (ra rb : List TagRecord) (hInv : Inv s)
    (hd : s.ledgers[dst]? = some (some ld)) (hs : s.ledgers[src]? = some (some ls))
    (hva : ledgerView s dst = encodeList ra) (hvb : ledgerView s src = encodeList rb)
    (hwa : ∀ r ∈ ra, r.WF) (hwb : ∀ r ∈ rb, r.WF)
    (hnw : ld.m_used + ls.m_used < 65536) :
    ledgerView (TagList.AddList s dst src) dst = encodeList ra ++ encodeList rb ∧
    ledgerRecords (TagList.AddList s dst src) dst = ra ++ rb ∧
    iterFull (TagList.AddList s dst src) dst = ra ++ rb := by
  have hv := view_AddList hInv hd hs hnw
  rw [hva, hvb] at hv
  have hwab : ∀ r ∈ ra ++ rb, r.WF := by
    intro r hr
    rcases List.mem_append.mp hr with h | h
    · exact hwa r h
    · exact hwb r h
  have hrecs : ledgerRecords (TagList.AddList s dst src) dst = ra ++ rb := by
    unfold ledgerRecords
    rw [hv, ← encodeList_append]
    exact decodeAll_encode _ hwab
  refine ⟨hv, hrecs, ?_⟩
  rw [iterFull_records _ _ (fun r hr => hwab r (hrecs ▸ hr)), hrecs]

/-- Witness for C2: merging the two one-tag ledgers of `sPair` yields the
first ledger's record followed by the second's. -/
theorem c2_merge_fidelity_witness :
    ledgerView (TagList.AddList sPair 0 1) 0
      = encodeList [⟨1, 1, 10, 20, [5]⟩] ++ encodeList [⟨2, 1, 30, 40, [6]⟩] ∧
    ledgerRecords (TagList.AddList sPair 0 1) 0
      = [⟨1, 1, 10, 20, [5]⟩, ⟨2, 1, 30, 40, [6]⟩] ∧
    iterFull (TagList.AddList sPair 0 1) 0
      = [⟨1, 1, 10, 20, [5]⟩, ⟨2, 1, 30, 40, [6]⟩] :=
  c2_merge_fidelity sPair 0 1 ⟨17, some 0⟩ ⟨17, some 1⟩
    [⟨1, 1, 10, 20, [5]⟩] [⟨2, 1, 30, 40, [6]⟩]
    (reachable_inv sPair_reachable) (by decide) (by decide) (by decide) (by decide)
    (by decide) (by decide) (by decide)

/-- C2 counterexample: the claim as stated — merge fidelity for *every*
pair of ledgers — fails on the code's `uint16_t` used counter.  Ledger 0 of
`sBig` holds exactly `recBigA` (packed size 65528) and ledger 1 exactly
`recSmallB` (packed size 16); after `AddList` the counter wraps to
`(65528 + 16) % 65536 = 8`, the destination's view truncates below one
header, and full-range iteration yields nothing instead of
`[recBigA, recSmallB]`. -/
theorem c2_merge_fidelity_counterexample :
    ledgerRecords sBig 0 = [recBigA] ∧
    ledgerRecords sBig 1 = [recSmallB] ∧
    iterFull (TagList.AddList sBig 0 1) 0 = [] ∧
    ([] : List TagRecord) ≠ [recBigA, recSmallB] := by
  have hInv0 : Inv sTwoLedgers := reachable_inv sTwoLedgers_reachable
  have hslotA : sTwoLedgers.ledgers[0]? = some (some ⟨0, none⟩) := by decide
  obtain ⟨sA, hokA, hvA⟩ := view_Add_ok hInv0 hslotA 1 65512 0 5 []
    (by decide) (by decide)
  have hsA : stepAdd sTwoLedgers 0 1 65512 0 5 [] = sA := by
    unfold stepAdd
    rw [hokA]
  have hu1 : u32 1 = 1 := by decide
  have hu2 : u32 65512 = 65512 := by decide
  have hu3 : u32 0 = 0 := by decide
  have hu4 : u32 5 = 5 := by decide
  have hu5 : u32 2 = 2 := by decide
  have hu6 : u32 7 = 7 := by decide
  have hu7 : u32 9 = 9 := by decide
  have hvA2 : ledgerView sA 0 = encodeRecord recBigA := by
    rw [hvA, show ledgerView sTwoLedgers 0 = [] from rfl]
    rw [hu1, hu2, hu3, hu4]
    simp only [List.take_nil, List.length_nil, Nat.sub_zero, List.nil_append]
    rfl
  have hreachA : Reachable sA :=
    hsA ▸ Reachable.add 0 1 65512 0 5 [] sTwoLedgers_reachable
  have hInvA : Inv sA := reachable_inv hreachA
  have hslotA1 : sA.ledgers[1]? = some (some ⟨0, none⟩) := by
    rw [← hsA]
    rfl
  obtain ⟨sB, hokB, hvB⟩ := view_Add_ok hInvA hslotA1 2 0 7 9 []
    (by decide) (by decide)
  have hsB : stepAdd sA 1 2 0 7 9 [] = sB := by
    unfold stepAdd
    rw [hokB]
  have hsBigB : sBig = sB := by
    show stepAdd (stepAdd sTwoLedgers 0 1 65512 0 5 []) 1 2 0 7 9 [] = sB
    rw [hsA]
    exact hsB
  have hvB2 : ledgerView sB 1 = encodeRecord recSmallB := by
    rw [hvB, show ledgerView sA 1 = [] by rw [← hsA]; rfl]
    rw [hu5, hu3, hu6, hu7]
    simp only [List.take_nil, List.length_nil, Nat.sub_zero, List.nil_append]
    rfl
  have hvA3 : ledgerView sB 0 = encodeRecord recBigA := by
    rw [← hsB, view_stepAdd_other hInvA 1 0 (by omega) 2 0 7 9 [], hvA2]
  have hwfA : recBigA.WF := by
    refine ⟨by decide, by decide, by decide, by decide, ?_⟩
    show (List.replicate 65512 0).length = 65512
    exact List.length_replicate 65512 0
  have hwfB : recSmallB.WF := by
    refine ⟨by decide, by decide, by decide, by decide, ?_⟩
    rfl
  have hrecsA : ledgerRecords sB 0 = [recBigA] := by
    unfold ledgerRecords
    rw [hvA3, show encodeRecord recBigA = encodeList [recBigA] by simp [encodeList]]
    refine decodeAll_encode _ ?_
    intro r hr
    rw [List.mem_singleton.mp hr]
    exact hwfA
  have hrecsB : ledgerRecords sB 1 = [recSmallB] := by
    unfold ledgerRecords
    rw [hvB2, show encodeRecord recSmallB = encodeList [recSmallB] by simp [encodeList]]
    refine decodeAll_encode _ ?_
    intro r hr
    rw [List.mem_singleton.mp hr]
    exact hwfB
  have hslotB0 : sB.ledgers[0]? = some (some ⟨65528, some 0⟩) := by
    rw [← hsB, ← hsA]
    rfl
  have hslotB1 : sB.ledgers[1]? = some (some ⟨16, some 1⟩) := by
    rw [← hsB, ← hsA]
    rfl
  have hreachB : Reachable sB := hsB ▸ Reachable.add 1 2 0 7 9 [] hreachA
  have hInvB : Inv sB := reachable_inv hreachB
  have hM : TagList.AddList sB 0 1
      = writeBytes sB 0 (ledgerView sB 0 ++ ledgerView sB 1) ((65528 + 16) % 65536) := by
    unfold TagList.AddList
    rw [hslotB0, hslotB1]
  have hlenA : (ledgerView sB 0).length = 65528 := by
    have hp : recBigA.payload = List.replicate 65512 0 := rfl
    rw [hvA3, length_encodeRecord, hp, List.length_replicate]
  have hlenAB : 8 ≤ (ledgerView sB 0 ++ ledgerView sB 1).length := by
    rw [List.length_append, hlenA]
    omega
  have hvM : ledgerView (TagList.AddList sB 0 1) 0 = (ledgerView sB 0).take 8 := by
    rw [hM, show (65528 + 16) % 65536 = 8 by decide]
    rw [view_writeBytes_take hInvB 0 ⟨65528, some 0⟩ hslotB0 _ 8 hlenAB]
    exact List.take_append_of_le_length (by omega)
  have hrecsM : ledgerRecords (TagList.AddList sB 0 1) 0 = [] := by
    unfold ledgerRecords
    rw [hvM]
    refine decodeAll_of_short _ ?_
    rw [List.length_take, hlenA]
    omega
  have hiter : iterFull (TagList.AddList sB 0 1) 0 = [] := by
    unfold iterFull
    rw [collectI_Begin]
    unfold ledgerRecords at hrecsM
    rw [show ledgerRecords (TagList.AddList sB 0 1) 0 = [] from hrecsM]
    rfl
  refine ⟨?_, ?_, ?_, by simp⟩
  · rw [hsBigB]
    exact hrecsA
  · rw [hsBigB]
    exact hrecsB
  · rw [hsBigB]
    exact hiter

/-- C3, amended: Round-trip — a record appended via
`Add(tid, bufferSize, start, end)` with its payload bytes written into the
returned buffer is recovered intact by iteration: same `tid`, `size`,
`start`, `end` and payload bytes, appended after the ledger's existing
records — PROVIDED the append fits the `uint16_t` used counter
(`used + 16 + bufferSize < 65536`).  Without that proviso the claim is
false: the counter wraps and the stored record is not recovered (see the
counterexample). -/
theorem c3_roundtrip (s : State) (lid : Nat) (l : TagList) (rs : List TagRecord)
    (tid size start stop : Nat) (payload : List Nat) (hInv : Inv s)
    (hl : s.ledgers[lid]? = some (some l))
    (hv : ledgerView s lid = encodeList rs) (hwf : ∀ r ∈ rs, r.WF)
    (h1 : tid < 4294967296) (h2 : size < 4294967296) (h3 : start < 4294967296)
    (h4 : stop < 4294967296) (hse : start ≤ stop) (hpl : payload.length = size)
    (hnw : l.m_used + 16 + size < 65536) :
    ∃ s2, TagList.Add s lid tid size start stop payload = .ok s2 ∧
      ledgerRecords s2 lid = rs ++ [⟨tid, size, start, stop, payload⟩] ∧
      iterFull s2 lid = rs ++ [⟨tid, size, start, stop, payload⟩] := by
  have hu1 : u32 tid = tid := Nat.mod_eq_of_lt h1
  have hu2 : u32 size = size := Nat.mod_eq_of_lt h2
  have hu3 : u32 start = start := Nat.mod_eq_of_lt h3
  have hu4 : u32 stop = stop := Nat.mod_eq_of_lt h4
  have hpay : payload.take size ++ List.replicate (size - payload.length) 0
      = payload := by
    rw [← hpl]
    simp
  obtain ⟨s2, hok, hview⟩ := view_Add_ok hInv hl tid size start stop payload
    (by omega) (by omega)
  rw [hu1, hu2, hu3, hu4, hpay] at hview
  have hrwf : (⟨tid, size, start, stop, payload⟩ : TagRecord).WF :=
    ⟨h1, h2, h3, h4, hpl⟩
  have hwab : ∀ r ∈ rs ++ [⟨tid, size, start, stop, payload⟩], r.WF := by
    intro r hr
    rcases List.mem_append.mp hr with h | h
    · exact hwf r h
    · rw [List.mem_singleton.mp h]
      exact hrwf
  have hrecs : ledgerRecords s2 lid = rs ++ [⟨tid, size, start, stop, payload⟩] := by
    unfold ledgerRecords
    rw [hview, hv]
    rw [show encodeRecord ⟨tid, size, start, stop, payload⟩
      = encodeList [⟨tid, size, start, stop, payload⟩] by simp [encodeList]]
    rw [← encodeList_append]
    exact decodeAll_encode _ hwab
  refine ⟨s2, hok, hrecs, ?_⟩
  rw [iterFull_records _ _ (fun r hr => hwab r (hrecs ▸ hr)), hrecs]

/-- Witness for C3: appending a four-byte tag to the (empty) fresh ledger
and reading it back through iteration. -/
theorem c3_roundtrip_witness :
    ∃ s2, TagList.Add s0L 0 3 4 100 200 [9, 8, 7, 6] = .ok s2 ∧
      ledgerRecords s2 0 = [] ++ [⟨3, 4, 100, 200, [9, 8, 7, 6]⟩] ∧
      iterFull s2 0 = [] ++ [⟨3, 4, 100, 200, [9, 8, 7, 6]⟩] :=
  c3_roundtrip s0L 0 ⟨0, none⟩ [] 3 4 100 200 [9, 8, 7, 6]
    (reachable_inv s0L_reachable) (by decide) (by decide) (by decide)
    (by decide) (by decide) (by decide) (by decide) (by decide) (by decide)
    (by decide)

/-- C3 counterexample: an `Add` of `bufferSize = 65520` on a fresh ledger
returns ok, but its packed size `16 + 65520 = 65536` wraps the `uint16_t`
used counter to `0`, so the ledger decodes to no records and full-range
iteration recovers nothing — the unrestricted round-trip claim fails. -/
theorem c3_roundtrip_counterexample :
    TagList.Add s0L 0 1 65520 0 5 [] = .ok sWrap ∧
    usedOf sWrap 0 = some 0 ∧
    ledgerRecords sWrap 0 = [] ∧
    iterFull sWrap 0 = [] := by
  have hslot : s0L.ledgers[0]? = some (some ⟨0, none⟩) := rfl
  have hInv0 : Inv s0L := reachable_inv s0L_reachable
  have hnu : (((⟨0, none⟩ : TagList)).m_used + 16 + u32 65520) % 65536 = 0 := rfl
  obtain ⟨nb, hok⟩ : ∃ nb,
      TagList.Add s0L 0 1 65520 0 5 [] = .ok (writeBytes s0L 0 nb 0) := by
    have h := Add_ok_state hslot 1 65520 0 5 [] (by decide)
    rw [hnu] at h
    exact ⟨_, h⟩
  have hW : sWrap = writeBytes s0L 0 nb 0 := by
    show stepAdd s0L 0 1 65520 0 5 [] = _
    unfold stepAdd
    rw [hok]
  have hv : ledgerView sWrap 0 = [] := by
    rw [hW, view_writeBytes_take hInv0 0 ⟨0, none⟩ hslot nb 0 (Nat.zero_le _)]
    exact List.take_zero nb
  have hrecs : ledgerRecords sWrap 0 = [] := by
    unfold ledgerRecords
    rw [hv]
    exact decodeAll_nil
  refine ⟨by rw [hok, hW], by rw [hW, usedOf_writeBytes s0L 0 ⟨0, none⟩ hslot nb 0], hrecs, ?_⟩
  unfold iterFull
  rw [collectI_Begin, hrecs]
  rfl

/-- C4: Rebase correctness — `AddAtEnd(delta, boundary)` adds `delta` to
both offsets of exactly those records whose `start` and `end` both lie
beyond the boundary and leaves every other record untouched; symmetrically,
`AddAtStart(delta, boundary)` shifts exactly the records lying entirely
before the boundary. -/
theorem c4_rebase_correctness (s : State) (lid : Nat) (l : TagList)
    (rs : List TagRecord) (hInv : Inv s)
    (hl : s.ledgers[lid]? = some (some l))
    (hv : ledgerView s lid = encodeList rs) (hwf : ∀ r ∈ rs, r.WF)
    (dE dS : Int) (bE bS : Nat) :
    ledgerRecords (TagList.AddAtEnd s lid dE bE) lid
      = rs.map (fun r => if beyond bE r then shiftRecord dE r else r) ∧
    ledgerRecords (TagList.AddAtStart s lid dS bS) lid
      = rs.map (fun r => if before bS r then shiftRecord dS r else r) :=
  ⟨records_AddAtEnd hInv hl rs hv hwf dE bE,
   records_AddAtStart hInv hl rs hv hwf dS bS⟩

/-- Witness for C4 at the spec's example ledger `[10,20]`, `[30,40]`:
`AddAtEnd(5, 25)` shifts only the second record to `[35,45]`;
`AddAtEnd(5, 5)` shifts both; `AddAtStart(5, 100)` (every record entirely
before 100) shifts both as well. -/
theorem c4_rebase_correctness_witness :
    ledgerRecords (TagList.AddAtEnd sTwo 0 5 25) 0
      = [⟨7, 0, 10, 20, []⟩, ⟨7, 0, 35, 45, []⟩] ∧
    ledgerRecords (TagList.AddAtEnd sTwo 0 5 5) 0
      = [⟨7, 0, 15, 25, []⟩, ⟨7, 0, 35, 45, []⟩] ∧
    ledgerRecords (TagList.AddAtStart sTwo 0 5 100) 0
      = [⟨7, 0, 15, 25, []⟩, ⟨7, 0, 35, 45, []⟩] :=
  ⟨((c4_rebase_correctness sTwo 0 ⟨32, some 1⟩ [⟨7, 0, 10, 20, []⟩, ⟨7, 0, 30, 40, []⟩]
      (reachable_inv sTwo_reachable) (by decide) (by decide) (by decide)
      5 5 25 100).1).trans (by decide),
   ((c4_rebase_correctness sTwo 0 ⟨32, some 1⟩ [⟨7, 0, 10, 20, []⟩, ⟨7, 0, 30, 40, []⟩]
      (reachable_inv sTwo_reachable) (by decide) (by decide) (by decide)
      5 5 5 100).1).trans (by decide),
   ((c4_rebase_correctness sTwo 0 ⟨32, some 1⟩ [⟨7, 0, 10, 20, []⟩, ⟨7, 0, 30, 40, []⟩]
      (reachable_inv sTwo_reachable) (by decide) (by decide) (by decide)
      5 5 5 100).2).trans (by decide)⟩

/-- C1: Copy-on-write isolation — a copy of L0 (slot `lid0`), whether made
by copy construction (`copyTagList`, landing in the fresh slot
`s.ledgers.length`) or by assignment (`assignTagList` onto an existing
handle `dst`), is isolated from its sibling: appending a tag (`Add`) to
either handle, or clearing (`RemoveAll`) either handle, leaves the other
handle's observable bytes — and hence its record list, record count and
offsets — exactly as before. -/
theorem c1_cow_isolation (s : State) (lid0 : Nat) (l0 : TagList)
    (hInv : Inv s) (h0 : s.ledgers[lid0]? = some (some l0))
    (tid size start stop : Nat) (payload : List Nat) :
    (ledgerView (stepAdd (copyTagList s lid0) s.ledgers.length
        tid size start stop payload) lid0
      = ledgerView (copyTagList s lid0) lid0 ∧
     ledgerView (stepAdd (copyTagList s lid0) lid0
        tid size start stop payload) s.ledgers.length
      = ledgerView (copyTagList s lid0) s.ledgers.length) ∧
    (ledgerView (TagList.RemoveAll (copyTagList s lid0) s.ledgers.length) lid0
      = ledgerView (copyTagList s lid0) lid0 ∧
     ledgerView (TagList.RemoveAll (copyTagList s lid0) lid0) s.ledgers.length
      = ledgerView (copyTagList s lid0) s.ledgers.length) ∧
    (ledgerRecords (stepAdd (copyTagList s lid0) s.ledgers.length
        tid size start stop payload) lid0
      = ledgerRecords (copyTagList s lid0) lid0 ∧
     ledgerRecords (stepAdd (copyTagList s lid0) lid0
        tid size start stop payload) s.ledgers.length
      = ledgerRecords (copyTagList s lid0) s.ledgers.length ∧
     ledgerRecords (TagList.RemoveAll (copyTagList s lid0) s.ledgers.length) lid0
      = ledgerRecords (copyTagList s lid0) lid0 ∧
     ledgerRecords (TagList.RemoveAll (copyTagList s lid0) lid0) s.ledgers.length
      = ledgerRecords (copyTagList s lid0) s.ledgers.length) ∧
    (∀ (dst : Nat) (ld : TagList), dst ≠ lid0 →
      s.ledgers[dst]? = some (some ld) →
      (ledgerView (stepAdd (assignTagList s dst lid0) dst
          tid size start stop payload) lid0
        = ledgerView (assignTagList s dst lid0) lid0 ∧
       ledgerView (stepAdd (assignTagList s dst lid0) lid0
          tid size start stop payload) dst
        = ledgerView (assignTagList s dst lid0) dst ∧
       ledgerView (TagList.RemoveAll (assignTagList s dst lid0) dst) lid0
        = ledgerView (assignTagList s dst lid0) lid0 ∧
       ledgerView (TagList.RemoveAll (assignTagList s dst lid0) lid0) dst
        = ledgerView (assignTagList s dst lid0) dst) ∧
      (ledgerRecords (stepAdd (assignTagList s dst lid0) dst
          tid size start stop payload) lid0
        = ledgerRecords (assignTagList s dst lid0) lid0 ∧
       ledgerRecords (stepAdd (assignTagList s dst lid0) lid0
          tid size start stop payload) dst
        = ledgerRecords (assignTagList s dst lid0) dst ∧
       ledgerRecords (TagList.RemoveAll (assignTagList s dst lid0) dst) lid0
        = ledgerRecords (assignTagList s dst lid0) lid0 ∧
       ledgerRecords (TagList.RemoveAll (assignTagList s dst lid0) lid0) dst
        = ledgerRecords (assignTagList s dst lid0) dst)) := by
  have hInv1 : Inv (copyTagList s lid0) := inv_copyTagList hInv lid0
  have hlt : lid0 < s.ledgers.length := (List.getElem?_eq_some.mp h0).1
  have hne : lid0 ≠ s.ledgers.length := by omega
  have ha1 := view_stepAdd_other hInv1 s.ledgers.length lid0 hne
    tid size start stop payload
  have ha2 := view_stepAdd_other hInv1 lid0 s.ledgers.length (fun hh => hne hh.symm)
    tid size start stop payload
  have hr1 := view_RemoveAll_other hInv1 s.ledgers.length lid0 hne
  have hr2 := view_RemoveAll_other hInv1 lid0 s.ledgers.length (fun hh => hne hh.symm)
  refine ⟨⟨ha1, ha2⟩, ⟨hr1, hr2⟩,
    ⟨congrArg decodeAll ha1, congrArg decodeAll ha2,
     congrArg decodeAll hr1, congrArg decodeAll hr2⟩, ?_⟩
  intro dst ld hdne hd
  have hInvA : Inv (assignTagList s dst lid0) := inv_assignTagList hInv dst lid0
  have hb1 := view_stepAdd_other hInvA dst lid0 (fun hh => hdne hh.symm)
    tid size start stop payload
  have hb2 := view_stepAdd_other hInvA lid0 dst hdne tid size start stop payload
  have hb3 := view_RemoveAll_other hInvA dst lid0 (fun hh => hdne hh.symm)
  have hb4 := view_RemoveAll_other hInvA lid0 dst hdne
  exact ⟨⟨hb1, hb2, hb3, hb4⟩,
    congrArg decodeAll hb1, congrArg decodeAll hb2,
    congrArg decodeAll hb3, congrArg decodeAll hb4⟩

/-- Witness for C1: two one-tag ledgers; copy-constructing ledger 0 (into
the fresh slot 2) and mutating either side leaves the other side intact,
and the same after assigning ledger 0 onto ledger 1. -/
theorem c1_cow_isolation_witness :
    (ledgerView (stepAdd (copyTagList sPair 0) sPair.ledgers.length
        9 1 50 60 [3]) 0
      = ledgerView (copyTagList sPair 0) 0 ∧
     ledgerView (stepAdd (copyTagList sPair 0) 0
        9 1 50 60 [3]) sPair.ledgers.length
      = ledgerView (copyTagList sPair 0) sPair.ledgers.length) ∧
    (ledgerView (TagList.RemoveAll (copyTagList sPair 0) sPair.ledgers.length) 0
      = ledgerView (copyTagList sPair 0) 0 ∧
     ledgerView (TagList.RemoveAll (copyTagList sPair 0) 0) sPair.ledgers.length
      = ledgerView (copyTagList sPair 0) sPair.ledgers.length) ∧
    (ledgerRecords (stepAdd (copyTagList sPair 0) sPair.ledgers.length
        9 1 50 60 [3]) 0
      = ledgerRecords (copyTagList sPair 0) 0 ∧
     ledgerRecords (stepAdd (copyTagList sPair 0) 0
        9 1 50 60 [3]) sPair.ledgers.length
      = ledgerRecords (copyTagList sPair 0) sPair.ledgers.length ∧
     ledgerRecords (TagList.RemoveAll (copyTagList sPair 0) sPair.ledgers.length) 0
      = ledgerRecords (copyTagList sPair 0) 0 ∧
     ledgerRecords (TagList.RemoveAll (copyTagList sPair 0) 0) sPair.ledgers.length
      = ledgerRecords (copyTagList sPair 0) sPair.ledgers.length) ∧
    ((ledgerView (stepAdd (assignTagList sPair 1 0) 1 9 1 50 60 [3]) 0
        = ledgerView (assignTagList sPair 1 0) 0 ∧
      ledgerView (stepAdd (assignTagList sPair 1 0) 0 9 1 50 60 [3]) 1
        = ledgerView (assignTagList sPair 1 0) 1 ∧
      ledgerView (TagList.RemoveAll (assignTagList sPair 1 0) 1) 0
        = ledgerView (assignTagList sPair 1 0) 0 ∧
      ledgerView (TagList.RemoveAll (assignTagList sPair 1 0) 0) 1
        = ledgerView (assignTagList sPair 1 0) 1) ∧
     (ledgerRecords (stepAdd (assignTagList sPair 1 0) 1 9 1 50 60 [3]) 0
        = ledgerRecords (assignTagList sPair 1 0) 0 ∧
      ledgerRecords (stepAdd (assignTagList sPair 1 0) 0 9 1 50 60 [3]) 1
        = ledgerRecords (assignTagList sPair 1 0) 1 ∧
      ledgerRecords (TagList.RemoveAll (assignTagList sPair 1 0) 1) 0
        = ledgerRecords (assignTagList sPair 1 0) 0 ∧
      ledgerRecords (TagList.RemoveAll (assignTagList sPair 1 0) 0) 1
        = ledgerRecords (assignTagList sPair 1 0) 1)) := by
  have h := c1_cow_isolation sPair 0 ⟨17, some 0⟩ (reachable_inv sPair_reachable)
    (by decide) 9 1 50 60 [3]
  exact ⟨h.1, h.2.1, h.2.2.1, h.2.2.2 1 ⟨17, some 1⟩ (by decide) (by decide)⟩

/-- C9: Refcount invariant — in every reachable state a block referenced by
a live handle is live with `refcount ≥ 1`; copying a handle increments its
block's refcount and shares the pointer without copying bytes; destruction
or reassignment decrements the old block's refcount; and the block's bytes
are released (the slot freed) exactly when the refcount reaches 0. -/
theorem c9_refcount_invariant (s : State) (hs : Reachable s) :
    (∀ (lid : Nat) (l : TagList) (bid : Nat),
      s.ledgers[lid]? = some (some l) → l.m_data = some bid →
      ∃ blk, s.blocks[bid]? = some (some blk) ∧ 1 ≤ blk.count) ∧
    (∀ (lid : Nat) (l : TagList) (bid : Nat) (blk : TagListData),
      s.ledgers[lid]? = some (some l) → l.m_data = some bid →
      s.blocks[bid]? = some (some blk) →
      (copyTagList s lid).blocks[bid]? = some (some ⟨blk.count + 1, blk.data⟩) ∧
      (copyTagList s lid).ledgers[s.ledgers.length]? = some (some l)) ∧
    (∀ (lid : Nat) (l : TagList) (bid : Nat) (blk : TagListData),
      s.ledgers[lid]? = some (some l) → l.m_data = some bid →
      s.blocks[bid]? = some (some blk) →
      (blk.count ≤ 1 → (destroyTagList s lid).blocks[bid]? = some none) ∧
      (2 ≤ blk.count → (destroyTagList s lid).blocks[bid]?
        = some (some ⟨blk.count - 1, blk.data⟩))) ∧
    (∀ (dst src : Nat) (ld ls : TagList) (bidD : Nat) (blkD : TagListData),
      dst ≠ src → s.ledgers[dst]? = some (some ld) →
      s.ledgers[src]? = some (some ls) → ld.m_data = some bidD →
      ls.m_data ≠ some bidD → s.blocks[bidD]? = some (some blkD) →
      (blkD.count ≤ 1 → (assignTagList s dst src).blocks[bidD]? = some none) ∧
      (2 ≤ blkD.count → (assignTagList s dst src).blocks[bidD]?
        = some (some ⟨blkD.count - 1, blkD.data⟩))) := by
  have hInv := reachable_inv hs
  refine ⟨?_, ?_, ?_, ?_⟩
  · intro lid l bid hl hd
    obtain ⟨blk, hblk, hcnt, hpos⟩ := hInv.liveRef hl hd
    exact ⟨blk, hblk, by omega⟩
  · intro lid l bid blk hl hd hblk
    unfold copyTagList
    rw [hl]
    constructor
    · dsimp only
      rw [hd]
      exact shareData_getElem_self s.blocks bid blk hblk
    · simp
  · intro lid l bid blk hl hd hblk
    unfold destroyTagList relink
    rw [hl]
    dsimp only
    rw [hd]
    have hdrop := Deallocate_getElem_self (shareData s.blocks ((none : Option TagList).bind
      TagList.m_data)) bid blk (by exact hblk)
    constructor
    · intro hle
      rw [hdrop, if_pos hle]
    · intro hge
      rw [hdrop, if_neg (by omega)]
  · intro dst src ld ls bidD blkD hne hdst hsrc hdD hnsD hblkD
    unfold assignTagList
    rw [if_neg hne, hsrc]
    unfold relink
    rw [hdst]
    dsimp only
    rw [hdD]
    have hshared : (shareData s.blocks ((some ls).bind TagList.m_data))[bidD]?
        = some (some blkD) := by
      show (shareData s.blocks ls.m_data)[bidD]? = some (some blkD)
      rcases hmd : ls.m_data with _ | bt
      · exact hblkD
      · have hbb : bidD ≠ bt := by
          intro hh
          exact hnsD (by rw [hmd, hh])
        rw [shareData_getElem_ne s.blocks bt bidD hbb]
        exact hblkD
    have hdrop := Deallocate_getElem_self (shareData s.blocks
      ((some ls).bind TagList.m_data)) bidD blkD hshared
    constructor
    · intro hle
      rw [hdrop, if_pos hle]
    · intro hge
      rw [hdrop, if_neg (by omega)]

/-- Witness for C9 on concrete heaps: the one-tag ledger's block is live at
refcount 1; copying takes it to 2 and shares the handle; destroying the sole
owner frees the block; reassigning the first ledger of `sPair` to the second
frees its old block. -/
theorem c9_refcount_invariant_witness :
    (∃ blk, sOne.blocks[0]? = some (some blk) ∧ 1 ≤ blk.count) ∧
    ((copyTagList sOne 0).blocks[0]?
        = some (some ⟨1 + 1, (ledgerView sOne 0)⟩) ∧
     (copyTagList sOne 0).ledgers[sOne.ledgers.length]? = some (some ⟨20, some 0⟩)) ∧
    (destroyTagList sOne 0).blocks[0]? = some none ∧
    (assignTagList sPair 0 1).blocks[0]? = some none := by
  refine ⟨(c9_refcount_invariant sOne sOne_reachable).1 0 ⟨20, some 0⟩ 0
      (by decide) (by decide), ?_, ?_, ?_⟩
  · have h := (c9_refcount_invariant sOne sOne_reachable).2.1 0 ⟨20, some 0⟩ 0
      ⟨1, ledgerView sOne 0⟩ (by decide) (by decide) (by decide)
    exact ⟨h.1, h.2⟩
  · exact ((c9_refcount_invariant sOne sOne_reachable).2.2.1 0 ⟨20, some 0⟩ 0
      ⟨1, ledgerView sOne 0⟩ (by decide) (by decide) (by decide)).1 (by decide)
  · exact ((c9_refcount_invariant sPair sPair_reachable).2.2.2 0 1
      ⟨17, some 0⟩ ⟨17, some 1⟩ 0 ⟨1, ledgerView sPair 0⟩
      (by decide) (by decide) (by decide) (by decide) (by decide)
      (by decide)).1 (by decide)

/-- C10: The `uint16_t` used counter — `m_used` is 16-bit, so in every
reachable state a ledger's packed byte total is at most 65535, and every
successful `Add` advances the counter by `16 + bufferSize` reduced modulo
2^16: a sequence of appends whose packed total exceeds 65535 wraps. -/
theorem c10_u16_used_wraps (s : State) (hs : Reachable s) :
    (∀ (lid : Nat) (l : TagList),
      s.ledgers[lid]? = some (some l) → l.m_used < 65536) ∧
    (∀ (lid : Nat) (l : TagList) (tid size start stop : Nat)
      (payload : List Nat) (s2 : State),
      s.ledgers[lid]? = some (some l) →
      TagList.Add s lid tid size start stop payload = .ok s2 →
      usedOf s2 lid = some ((l.m_used + 16 + u32 size) % 65536)) := by
  have hInv := reachable_inv hs
  refine ⟨fun lid l hl => hInv.u16 lid l hl, ?_⟩
  intro lid l tid size start stop payload s2 hl h
  unfold TagList.Add at h
  split at h
  · exact Except.noConfusion h
  · rw [hl] at h
    dsimp only at h
    have hs2 : s2 = writeBytes s lid (ledgerView s lid ++ encodeRecord
        ⟨u32 tid, u32 size, u32 start, u32 stop,
          payload.take (u32 size) ++ List.replicate (u32 size - payload.length) 0⟩)
        ((l.m_used + 16 + u32 size) % 65536) :=
      ((Except.ok.injEq _ _ ▸ h : _ = s2)).symm
    subst hs2
    exact usedOf_writeBytes s lid l hl _ _

/-- Witness for C10: one `Add` of `bufferSize = 70000` to the fresh ledger
drives the packed total to 70016, but the used counter wraps to
`70016 % 65536 = 4480`. -/
theorem c10_u16_used_wraps_witness :
    usedOf (stepAdd s0L 0 1 70000 0 5 []) 0 = some 4480 ∧ (0 + 16 + 70000) % 65536 = 4480 := by
  refine ⟨?_, by decide⟩
  have h := (c10_u16_used_wraps s0L s0L_reachable).2 0 ⟨0, none⟩ 1 70000 0 5 []
    (stepAdd s0L 0 1 70000 0 5 []) (by decide) rfl
  rw [h]
  rfl

end NS3
